import Mathlib

/-!
Scoped value table of `V8GoContext` (src/context.cc)

A shallow embedding of the value table / value-scope protocol implemented by
`V8GoContext::addValue`, `getValue`, `pushValueScope` and `popValueScope`.

Modelling conventions
* `uint32_t` quantities (scope ids, `ValueRef` fields) are natural numbers; the two
  places where the source produces a fresh 32-bit value (`uint32_t(_values.size())`
  and `++_latestScope`) reduce modulo `2 ^ 32`.
* `std::vector` is a `List` in vector order (front first, `back()` last); its size is an
  unbounded natural number.
* A handle (`Local<Value>` / the `PersistentValue` that keeps it alive) is an element of
  an arbitrary type `V`; `default : V` is the empty handle that `std::vector::resize`
  value-initialises new entries with.
* The class declaration (header `v8go.hh`) is not part of the sources at hand, so the
  initial values of `_curScope` and `_latestScope` are parameters of `fresh`.
* `RunScript` is embedded over an `Engine` record holding the outcomes of the runtime
  primitives it calls; the embedder data of runtime context objects is a store indexed by
  context object and slot.
-/

namespace V8Go

/-- Number of distinct `uint32_t` values, `2 ^ 32`. -/
def u32Size : Nat := 4294967296

/-- Conversion of a size to `uint32_t`, as in `uint32_t(_values.size())`. -/
def toU32 (n : Nat) : Nat := n % u32Size

/-- The token `ValueRef {scope, index}`; also the element type of `_savedScopes`,
where `scope` is the parent scope id and `index` the base index of a checkpoint. -/
structure ValueRef where
  scope : Nat
  index : Nat
  deriving DecidableEq, Repr

/-- The value-scope state of a `V8GoContext`: `_values`, `_savedScopes`, `_curScope`,
`_latestScope`. -/
structure V8GoContext (V : Type) where
  values : List V
  savedScopes : List ValueRef
  curScope : Nat
  latestScope : Nat
  deriving DecidableEq, Repr

/-- Result of `getValue`: either the first `return` (the table entry) or the fall-through
path that prints the diagnostic and returns `v8::Undefined(iso)`. -/
inductive GetResult (V : Type) where
  | entry (v : V)
  | undefined
  deriving DecidableEq, Repr

variable {V : Type}

/-- A context right after construction: empty table, empty checkpoint stack. The default
member initialisers of `_curScope` and `_latestScope` live in the class declaration, which
is not available, so both are parameters. -/
def fresh (cur latest : Nat) : V8GoContext V :=
  { values := [], savedScopes := [], curScope := cur, latestScope := latest }

/-- Semantics of `std::vector::resize(n)`: truncate, or pad with value-initialised entries. -/
def resize [Inhabited V] (l : List V) (n : Nat) : List V :=
  l.take n ++ List.replicate (n - l.length) default

/-- `V8GoContext::addValue` (context.cc:32-41): returns the new ref and the updated state. -/
def addValue (s : V8GoContext V) (val : V) : ValueRef × V8GoContext V :=
  let ref : ValueRef := { scope := s.curScope, index := toU32 s.values.length }
  (ref, { s with values := s.values ++ [val] })

/-- The loop of `getValue` (context.cc:46-51) over `_savedScopes` from `rbegin()` to
`rend()`: the list argument is the reversed vector, `scope` the running local. -/
def scanScopes (index : Nat) : Nat → List ValueRef → Nat
  | scope, [] => scope
  | scope, i :: rest => if index ≥ i.index then scope else scanScopes index i.scope rest

/-- `V8GoContext::getValue` (context.cc:43-60). -/
def getValue (s : V8GoContext V) (ref : ValueRef) : GetResult V :=
  if h : ref.index < s.values.length then
    let scope := scanScopes ref.index s.curScope s.savedScopes.reverse
    if ref.scope = scope then GetResult.entry (s.values.get ⟨ref.index, h⟩)
    else GetResult.undefined
  else GetResult.undefined

/-- `V8GoContext::pushValueScope` (context.cc:62-66): returns the new scope id and the
updated state. -/
def pushValueScope (s : V8GoContext V) : Nat × V8GoContext V :=
  let latest := (s.latestScope + 1) % u32Size
  (latest,
    { s with
      savedScopes := s.savedScopes ++ [{ scope := s.curScope, index := toU32 s.values.length }]
      latestScope := latest
      curScope := latest })

/-- `V8GoContext::popValueScope` (context.cc:68-77): returns the boolean result and the
state after the call. -/
def popValueScope [Inhabited V] (s : V8GoContext V) (scopeID : Nat) : Bool × V8GoContext V :=
  if h : scopeID ≠ s.curScope ∨ s.savedScopes = [] then (false, s)
  else
    let r := s.savedScopes.getLast (fun e => h (Or.inr e))
    (true,
      { s with
        savedScopes := s.savedScopes.dropLast
        curScope := r.scope
        values := resize s.values r.index })

/-- One call on a context, as issued by the host. -/
inductive Op (V : Type) where
  | add (val : V)
  | push
  | pop (scopeID : Nat)
  deriving DecidableEq, Repr

/-- State after one call. -/
def step [Inhabited V] (s : V8GoContext V) : Op V → V8GoContext V
  | Op.add val => (addValue s val).2
  | Op.push => (pushValueScope s).2
  | Op.pop scopeID => (popValueScope s scopeID).2

/-- State after a sequence of calls, executed left to right. -/
def run [Inhabited V] (s : V8GoContext V) : List (Op V) → V8GoContext V
  | [] => s
  | o :: os => run (step s o) os

/-- Number of `pushValueScope` calls in a sequence. -/
def numPushes : List (Op V) → Nat
  | [] => 0
  | Op.push :: os => numPushes os + 1
  | _ :: os => numPushes os

/-- The owner of a table index as the specification words it: walk the checkpoints from
innermost to outermost up to (not including) the first one whose base index is `≤ index`;
the candidate is the parent scope of the last checkpoint walked over, or the current scope
id when none was. -/
def ownerSpec (s : V8GoContext V) (index : Nat) : Nat :=
  match (s.savedScopes.reverse.takeWhile (fun c => decide (index < c.index))).getLast? with
  | none => s.curScope
  | some c => c.scope

/-- Index invariant of the checkpoint stack: base indices are non-decreasing from the
outermost to the innermost checkpoint and none exceeds the table length. -/
def IndexInv (s : V8GoContext V) : Prop :=
  (s.savedScopes.map ValueRef.index).Pairwise (· ≤ ·) ∧
  ∀ c ∈ s.savedScopes, c.index ≤ s.values.length

/-- Scope-id invariant: parent scope ids on the checkpoint stack increase strictly from the
outermost to the innermost checkpoint, all are below the current scope id, and the current
scope id is at most the latest allocated id. -/
def ScopeInv (s : V8GoContext V) : Prop :=
  (s.savedScopes.map ValueRef.scope).Pairwise (· < ·) ∧
  (∀ c ∈ s.savedScopes, c.scope < s.curScope) ∧
  s.curScope ≤ s.latestScope

/-- Scope id `id` names no open scope of `s` and has already been allocated. -/
def Closed (id : Nat) (s : V8GoContext V) : Prop :=
  s.curScope ≠ id ∧ (∀ c ∈ s.savedScopes, c.scope ≠ id) ∧ id ≤ s.latestScope

/-- The scope `id`, opened on top of the stack `base` with checkpoint `top`, is still open
in `s`: its checkpoint is on the stack, and the ids of the open scopes from that checkpoint
inwards are `id` followed by larger ids only. -/
def OpenAt (id : Nat) (base : List ValueRef) (top : ValueRef) (s : V8GoContext V) : Prop :=
  ∃ newer rest, s.savedScopes = base ++ top :: newer ∧
    newer.map ValueRef.scope ++ [s.curScope] = id :: rest ∧
    (∀ x ∈ rest, id < x) ∧ id ≤ s.latestScope

/-- The ref `r`, created for handle `h` on top of the stack `older`, is still live in `s`:
the checkpoints recorded since lie above `r.index`, the outermost scope opened since (or
the current scope when none was) is `r.scope`, and the table still holds `h` at `r.index`. -/
def Live (r : ValueRef) (h : V) (older : List ValueRef) (s : V8GoContext V) : Prop :=
  ∃ newer, s.savedScopes = older ++ newer ∧ (∀ c ∈ newer, r.index < c.index) ∧
    (newer.map ValueRef.scope ++ [s.curScope]).head? = some r.scope ∧
    s.values[r.index]? = some h

/-- Executable check that no `popValueScope(id)` call in the sequence succeeds when the
sequence is run from `s`. -/
def noPopSucceeds [Inhabited V] (id : Nat) : V8GoContext V → List (Op V) → Bool
  | _, [] => true
  | s, Op.pop x :: os =>
    (!(decide (x = id) && (popValueScope s x).1)) && noPopSucceeds id (step s (Op.pop x)) os
  | s, o :: os => noPopSucceeds id (step s o) os

/-- The scope `id`, opened on top of the stack `base` with checkpoint `top`, has not been
closed yet: its checkpoint is on the stack, and the outermost scope opened since (or the
current scope when none was) carries the id `id`. -/
def Within (id : Nat) (base : List ValueRef) (top : ValueRef) (s : V8GoContext V) : Prop :=
  ∃ newer, s.savedScopes = base ++ top :: newer ∧
    (newer.map ValueRef.scope ++ [s.curScope]).head? = some id

/-- `V8GoContext::getValue` (context.cc:43-60) as a call on the context: the result together
with the state after the call. No statement of the body assigns to a member, so every
return path hands back the state it was called on. -/
def getValueCall (s : V8GoContext V) (ref : ValueRef) : GetResult V × V8GoContext V :=
  if h : ref.index < s.values.length then
    let scope := scanScopes ref.index s.curScope s.savedScopes.reverse
    if ref.scope = scope then (GetResult.entry (s.values.get ⟨ref.index, h⟩), s)
    else (GetResult.undefined, s)
  else (GetResult.undefined, s)

/-- The result struct `RtnValue` of the boundary functions: a ref and an error, where
`none` stands for the zero-initialised (unset) error of `RtnValue rtn = {}`. -/
structure RtnValue (E : Type) where
  value : ValueRef
  error : Option E
  deriving DecidableEq, Repr

/-- The runtime primitives `RunScript` calls, with their outcomes as parameters:
`String::NewFromUtf8` and `Script::Compile` yield `none` for an empty `MaybeLocal`;
`Script::Run` may call back into the host, so it also returns the context state it leaves
behind; `exceptionError` is the error `_with.exceptionError()` builds. -/
structure Engine (T Str Script V E : Type) where
  newFromUtf8 : T → Option Str
  compile : Str → Str → Option Script
  runScript : Script → V8GoContext V → Option V × V8GoContext V
  exceptionError : E

/-- Modelled from the spec: `WithContext::returnValue` is declared outside the available
sources; "on success the produced value is registered via `addValue` under whichever scope
is current at call time", on failure the result carries the error instead of a token. -/
def returnValue {E : Type} (exceptionError : E) (result : Option V × V8GoContext V) :
    RtnValue E × V8GoContext V :=
  match result.1 with
  | some v => ({ value := (addValue result.2 v).1, error := none }, (addValue result.2 v).2)
  | none => ({ value := ⟨0, 0⟩, error := some exceptionError }, result.2)

/-- `RunScript` (context.cc:115-139): both strings are converted first; a failed conversion
or a failed compilation stores `exceptionError()` in the zero-initialised result and
returns; otherwise the script is run and its outcome goes through `returnValue`. -/
def RunScript {T Str Script E : Type} (eng : Engine T Str Script V E) (ctx : V8GoContext V)
    (source origin : T) : RtnValue E × V8GoContext V :=
  let maybeSrc := eng.newFromUtf8 source
  let maybeOgn := eng.newFromUtf8 origin
  match maybeSrc, maybeOgn with
  | some src, some ogn =>
    match eng.compile src ogn with
    | some script => returnValue eng.exceptionError (eng.runScript script ctx)
    | none => ({ value := ⟨0, 0⟩, error := some eng.exceptionError }, ctx)
  | _, _ => ({ value := ⟨0, 0⟩, error := some eng.exceptionError }, ctx)

/-- Embedder data of the runtime context objects: for a context object (named by a
number) and a slot index, the aligned pointer stored there, if any. -/
structure EmbedderData where
  slots : Nat → Nat → Option Nat

/-- `Context::SetAlignedPointerInEmbedderData(index, ptr)` on the context object `context`:
only that slot of that object changes. -/
def SetAlignedPointerInEmbedderData (d : EmbedderData) (context index ptr : Nat) :
    EmbedderData :=
  { slots := fun c i => if c = context ∧ i = index then some ptr else d.slots c i }

/-- `Context::GetAlignedPointerFromEmbedderData(index)` on the context object `context`. -/
def GetAlignedPointerFromEmbedderData (d : EmbedderData) (context index : Nat) : Option Nat :=
  d.slots context index

/-- The constructor `V8GoContext::V8GoContext` (context.cc:12-18), as far as the embedder
data goes: the wrapper at address `this` stores itself in slot 1 of `context_`. -/
def V8GoContext.ctor (d : EmbedderData) (context_ this : Nat) : EmbedderData :=
  SetAlignedPointerInEmbedderData d context_ 1 this

/-- `V8GoContext::fromContext` (context.cc:27-29): reads slot 1 of `ctx`. -/
def V8GoContext.fromContext (d : EmbedderData) (ctx : Nat) : Option Nat :=
  GetAlignedPointerFromEmbedderData d ctx 1

/-- Embedder data in which no slot has been set. -/
def EmbedderData.empty : EmbedderData := { slots := fun _ _ => none }

/-- A sample engine over numbered texts and scripts: text 0 cannot be converted, source 1
does not compile, running a script registers a value through a host callback and yields the
script number as its value; `exceptionError()` is the error number 7. -/
def sampleEngine : Engine Nat Nat Nat Nat Nat :=
  { newFromUtf8 := fun t => if t = 0 then none else some t
    compile := fun src _ => if src = 1 then none else some src
    runScript := fun script ctx => (some script, (addValue ctx 99).2)
    exceptionError := 7 }

/-- Executable check that the table holds fewer than `2 ^ 32` entries whenever
`pushValueScope` is called while the sequence is run from `s`. -/
def pushesBelow [Inhabited V] : V8GoContext V → List (Op V) → Bool
  | _, [] => true
  | s, Op.push :: os =>
    decide (s.values.length < u32Size) && pushesBelow (step s Op.push) os
  | s, o :: os => pushesBelow (step s o) os

/-- A call sequence that overflows the 32-bit base index: `2 ^ 32 - 1` values, a scope, one
more value, a nested scope (recorded with base index `0`), and the pop of the nested
scope. -/
def overflowOps : List (Op Nat) :=
  List.replicate (u32Size - 1) (Op.add 7) ++ [Op.push, Op.add 7, Op.push, Op.pop 3]

/-! Basic facts -/

theorem run_append [Inhabited V] (s : V8GoContext V) (a b : List (Op V)) :
    run s (a ++ b) = run (run s a) b := by
  induction a generalizing s with
  | nil => rfl
  | cons o os ih => simp [run, ih]

theorem popValueScope_fail [Inhabited V] (s : V8GoContext V) (x : Nat)
    (h : x ≠ s.curScope ∨ s.savedScopes = []) : popValueScope s x = (false, s) := by
  simp [popValueScope, h]

theorem popValueScope_concat [Inhabited V] (s : V8GoContext V) (st : List ValueRef)
    (c : ValueRef) (hst : s.savedScopes = st ++ [c]) :
    popValueScope s s.curScope =
      (true, { s with savedScopes := st, curScope := c.scope,
                      values := resize s.values c.index }) := by
  have hne : ¬ (s.curScope ≠ s.curScope ∨ s.savedScopes = []) := by
    simp [hst]
  simp [popValueScope, hst]

theorem resize_length [Inhabited V] (l : List V) (n : Nat) : (resize l n).length = n := by
  simp only [resize, List.length_append, List.length_take, List.length_replicate]
  omega

theorem resize_of_le [Inhabited V] (l : List V) (n : Nat) (h : n ≤ l.length) :
    resize l n = l.take n := by
  simp [resize, Nat.sub_eq_zero_of_le h]

theorem scanScopes_eq (index : Nat) (scope : Nat) (l : List ValueRef) :
    scanScopes index scope l =
      match (l.takeWhile (fun c => decide (index < c.index))).getLast? with
      | none => scope
      | some c => c.scope := by
  induction l generalizing scope with
  | nil => simp [scanScopes]
  | cons i rest ih =>
    by_cases h : index < i.index
    · have h' : ¬ index ≥ i.index := by omega
      rw [scanScopes, if_neg h', ih, List.takeWhile_cons_of_pos (by simpa using h)]
      cases hr : List.takeWhile (fun c => decide (index < c.index)) rest with
      | nil => simp
      | cons a t =>
        rw [List.getLast?_cons_cons, List.getLast?_eq_getLast (a :: t) (by simp)]
    · have h' : index ≥ i.index := by omega
      rw [scanScopes, if_pos h', List.takeWhile_cons_of_neg (by simpa using h)]
      simp

theorem u32Size_eq : u32Size = 4294967296 := rfl

theorem u32Size_eq_pow : u32Size = 2 ^ 32 := by decide

theorem toU32_of_lt (n : Nat) (h : n < u32Size) : toU32 n = n := Nat.mod_eq_of_lt h

theorem toU32_le (n : Nat) : toU32 n ≤ n := Nat.mod_le n u32Size

theorem run_replicate_add [Inhabited V] (s : V8GoContext V) (v : V) (n : Nat) :
    run s (List.replicate n (Op.add v)) = { s with values := s.values ++ List.replicate n v } := by
  induction n generalizing s with
  | zero => simp [run]
  | succ n ih =>
    rw [List.replicate_succ, run, ih]
    simp [step, addValue, List.replicate_succ]

theorem run_concat [Inhabited V] (s : V8GoContext V) (os : List (Op V)) (o : Op V) :
    run s (os ++ [o]) = step (run s os) o := by
  rw [run_append]; rfl

theorem run_replicate_push [Inhabited V] (s : V8GoContext V) (n : Nat) :
    (run s (List.replicate (n + 1) Op.push)).values = s.values ∧
    (run s (List.replicate (n + 1) Op.push)).latestScope = (s.latestScope + (n + 1)) % u32Size ∧
    (run s (List.replicate (n + 1) Op.push)).curScope = (s.latestScope + (n + 1)) % u32Size ∧
    ∃ st p, (run s (List.replicate (n + 1) Op.push)).savedScopes
      = st ++ [⟨p, toU32 s.values.length⟩] := by
  induction n with
  | zero => exact ⟨rfl, rfl, rfl, s.savedScopes, s.curScope, rfl⟩
  | succ n ih =>
    obtain ⟨h1, h2, h3, -⟩ := ih
    rw [List.replicate_succ' (n + 1), run_concat]
    generalize run s (List.replicate (n + 1) Op.push) = t at h1 h2 h3
    simp only [step, pushValueScope, h1, h2]
    refine ⟨trivial, ?_, ?_, ?_⟩
    · rw [Nat.mod_add_mod]; rfl
    · rw [Nat.mod_add_mod]; rfl
    · exact ⟨_, _, rfl⟩

theorem run_replicate_push_pos [Inhabited V] (s : V8GoContext V) (n : Nat) (hn : 0 < n) :
    (run s (List.replicate n Op.push)).values = s.values ∧
    (run s (List.replicate n Op.push)).latestScope = (s.latestScope + n) % u32Size ∧
    (run s (List.replicate n Op.push)).curScope = (s.latestScope + n) % u32Size ∧
    ∃ st p, (run s (List.replicate n Op.push)).savedScopes
      = st ++ [⟨p, toU32 s.values.length⟩] := by
  obtain ⟨m, rfl⟩ : ∃ m, n = m + 1 := ⟨n - 1, by omega⟩
  exact run_replicate_push s m

theorem pushValueScope_fst (s : V8GoContext V) :
    (pushValueScope s).1 = (s.latestScope + 1) % u32Size := rfl

theorem run_overflow_tail [Inhabited V] (vals : List V) (v : V)
    (hlen : vals.length = u32Size - 1) :
    run ({ values := vals, savedScopes := [], curScope := 1, latestScope := 1 } : V8GoContext V)
        [Op.push, Op.add v, Op.push, Op.pop 3]
      = { values := [], savedScopes := [⟨1, u32Size - 1⟩], curScope := 2, latestScope := 3 } := by
  have e1 : toU32 (u32Size - 1) = u32Size - 1 := by decide
  have e2 : toU32 (u32Size - 1 + 1) = 0 := by decide
  have e3 : (1 + 1) % u32Size = 2 := by decide
  have e4 : (2 + 1) % u32Size = 3 := by decide
  simp only [run, step, pushValueScope, addValue, List.nil_append, List.length_append,
    List.length_singleton, hlen, e1, e2, e3, e4]
  have h := popValueScope_concat
    ({ values := vals ++ [v], savedScopes := [⟨1, u32Size - 1⟩] ++ [⟨2, 0⟩], curScope := 3,
       latestScope := 3 } : V8GoContext V) [⟨1, u32Size - 1⟩] ⟨2, 0⟩ rfl
  simp only at h
  rw [h]
  simp only [resize, List.take_zero, Nat.zero_sub, List.replicate_zero, List.append_nil]

theorem run_overflowOps :
    run (fresh 1 1) overflowOps
      = { values := [], savedScopes := [⟨1, u32Size - 1⟩], curScope := 2, latestScope := 3 } := by
  rw [overflowOps, run_append, run_replicate_add]
  exact run_overflow_tail _ 7 (by simp only [fresh, List.nil_append, List.length_replicate])

theorem popValueScope_true_state [Inhabited V] (s : V8GoContext V) (x : Nat) (c : ValueRef)
    (htop : s.savedScopes.getLast? = some c) (hok : (popValueScope s x).1 = true) :
    popValueScope s x =
      (true, { s with savedScopes := s.savedScopes.dropLast, curScope := c.scope,
                      values := resize s.values c.index }) := by
  obtain ⟨st, hst⟩ := List.getLast?_eq_some_iff.mp htop
  have hx : x = s.curScope := by
    by_contra hne
    rw [popValueScope_fail s x (Or.inl hne)] at hok
    exact Bool.false_ne_true hok
  subst hx
  rw [popValueScope_concat s st c hst, hst, List.dropLast_concat]

/-! Frame facts and counters -/

theorem numPushes_append (a b : List (Op V)) :
    numPushes (a ++ b) = numPushes a + numPushes b := by
  induction a with
  | nil => simp [numPushes]
  | cons o os ih => cases o <;> simp +arith [numPushes, ih]

theorem popValueScope_latestScope [Inhabited V] (s : V8GoContext V) (x : Nat) :
    (popValueScope s x).2.latestScope = s.latestScope := by
  unfold popValueScope
  split <;> rfl

/-- Case analysis of `popValueScope`: either it fails and leaves the state alone, or the
argument is the current scope id, the stack ends in a checkpoint `c`, and the state is
restored from `c`. -/
theorem popValueScope_cases [Inhabited V] (s : V8GoContext V) (x : Nat) :
    popValueScope s x = (false, s) ∨
    ∃ st c, x = s.curScope ∧ s.savedScopes = st ++ [c] ∧
      popValueScope s x = (true, { s with savedScopes := st, curScope := c.scope,
                                          values := resize s.values c.index }) := by
  by_cases h : x ≠ s.curScope ∨ s.savedScopes = []
  · exact Or.inl (popValueScope_fail s x h)
  · right
    have hx : x = s.curScope := by
      by_contra hne; exact h (Or.inl hne)
    have hne : s.savedScopes ≠ [] := fun e => h (Or.inr e)
    refine ⟨s.savedScopes.dropLast, s.savedScopes.getLast hne, hx,
      (List.dropLast_concat_getLast hne).symm, ?_⟩
    subst hx
    exact popValueScope_concat s _ _ (List.dropLast_concat_getLast hne).symm

theorem popValueScope_false_state [Inhabited V] (s : V8GoContext V) (x : Nat)
    (h : (popValueScope s x).1 = false) : (popValueScope s x).2 = s := by
  rcases popValueScope_cases s x with hf | ⟨st, c, -, -, hp⟩
  · rw [hf]
  · rw [hp] at h; exact Bool.noConfusion h

theorem run_latestScope [Inhabited V] (s : V8GoContext V) (ops : List (Op V))
    (h : s.latestScope + numPushes ops < u32Size) :
    (run s ops).latestScope = s.latestScope + numPushes ops := by
  induction ops generalizing s with
  | nil => rfl
  | cons o os ih =>
    cases o with
    | add v =>
      simp only [numPushes] at h
      simp only [run, step, numPushes]
      exact ih _ h
    | push =>
      simp only [numPushes] at h
      have h1 : (s.latestScope + 1) % u32Size = s.latestScope + 1 :=
        Nat.mod_eq_of_lt (by omega)
      simp only [run, step, numPushes]
      rw [ih _ (by simp only [pushValueScope, h1]; omega)]
      simp only [pushValueScope, h1]
      omega
    | pop x =>
      simp only [numPushes] at h
      simp only [run, step, numPushes]
      rw [ih _ (by rw [popValueScope_latestScope]; exact h), popValueScope_latestScope]

/-! Invariants of reachable states -/

theorem indexInv_fresh (c0 l0 : Nat) : IndexInv (fresh c0 l0 : V8GoContext V) := by
  simp [IndexInv, fresh]

theorem indexInv_addValue (s : V8GoContext V) (v : V) (h : IndexInv s) :
    IndexInv (addValue s v).2 := by
  refine ⟨h.1, fun c hc => ?_⟩
  have := h.2 c hc
  simp only [addValue, List.length_append, List.length_singleton]
  omega

theorem indexInv_pushValueScope (s : V8GoContext V) (hlen : s.values.length < u32Size)
    (h : IndexInv s) : IndexInv (pushValueScope s).2 := by
  have hu := toU32_of_lt _ hlen
  refine ⟨?_, ?_⟩
  · simp only [pushValueScope, List.map_append, List.map_cons, List.map_nil]
    rw [List.pairwise_append]
    refine ⟨h.1, List.pairwise_singleton _ _, ?_⟩
    intro a ha b hb
    obtain ⟨c, hc, rfl⟩ := List.mem_map.mp ha
    rw [List.mem_singleton] at hb
    subst hb
    rw [hu]
    exact h.2 c hc
  · intro c hc
    simp only [pushValueScope, List.mem_append, List.mem_singleton] at hc
    rcases hc with hc | hc
    · exact h.2 c hc
    · subst hc; exact toU32_le _

theorem indexInv_popValueScope [Inhabited V] (s : V8GoContext V) (x : Nat) (h : IndexInv s) :
    IndexInv (popValueScope s x).2 ∧ (popValueScope s x).2.values.length ≤ s.values.length := by
  rcases popValueScope_cases s x with hf | ⟨st, c, -, hst, hp⟩
  · rw [hf]; exact ⟨h, le_refl _⟩
  · rw [hp]
    obtain ⟨h1, h2⟩ := h
    rw [hst, List.map_append, List.pairwise_append] at h1
    refine ⟨⟨h1.1, fun c' hc' => ?_⟩, ?_⟩
    · simp only [resize_length]
      exact h1.2.2 c'.index (List.mem_map_of_mem _ hc') c.index (by simp)
    · simp only [resize_length]
      exact h2 c (by rw [hst]; simp)

theorem run_indexInv [Inhabited V] (s : V8GoContext V) (ops : List (Op V))
    (h : IndexInv s)
    (hpush : ∀ a b, ops = a ++ Op.push :: b → (run s a).values.length < u32Size) :
    IndexInv (run s ops) := by
  induction ops generalizing s with
  | nil => exact h
  | cons o os ih =>
    have hpush' : ∀ a b, os = a ++ Op.push :: b →
        (run (step s o) a).values.length < u32Size := by
      intro a b hab
      exact hpush (o :: a) b (by rw [hab]; rfl)
    cases o with
    | add v => exact ih (addValue s v).2 (indexInv_addValue s v h) hpush'
    | push =>
      exact ih (pushValueScope s).2 (indexInv_pushValueScope s (hpush [] os rfl) h) hpush'
    | pop x => exact ih (popValueScope s x).2 (indexInv_popValueScope s x h).1 hpush'

theorem run_fresh_indexInv [Inhabited V] (c0 l0 : Nat) (ops : List (Op V))
    (hpush : ∀ a b, ops = a ++ Op.push :: b →
      (run (fresh c0 l0) a).values.length < u32Size) :
    IndexInv (run (fresh c0 l0) ops) :=
  run_indexInv (fresh c0 l0) ops (indexInv_fresh c0 l0) hpush

theorem pushesBelow_spec [Inhabited V] (s : V8GoContext V) (ops : List (Op V))
    (h : pushesBelow s ops = true) :
    ∀ a b, ops = a ++ Op.push :: b → (run s a).values.length < u32Size := by
  induction ops generalizing s with
  | nil => intro a b hab; simp at hab
  | cons o os ih =>
    intro a b hab
    cases a with
    | nil =>
      simp only [List.nil_append, List.cons.injEq] at hab
      obtain ⟨ho, -⟩ := hab
      subst ho
      simp only [pushesBelow, Bool.and_eq_true, decide_eq_true_eq] at h
      exact h.1
    | cons o' a' =>
      simp only [List.cons_append, List.cons.injEq] at hab
      obtain ⟨ho, hos⟩ := hab
      subst ho
      have h' : pushesBelow (step s o) os = true := by
        cases o with
        | add v => simpa only [pushesBelow] using h
        | push =>
          simp only [pushesBelow, Bool.and_eq_true] at h
          exact h.2
        | pop x => simpa only [pushesBelow] using h
      exact ih (step s o) h' a' b hos

theorem scopeInv_fresh (c0 l0 : Nat) (h : c0 ≤ l0) : ScopeInv (fresh c0 l0 : V8GoContext V) := by
  simp [ScopeInv, fresh, h]

theorem scopeInv_pushValueScope (s : V8GoContext V) (hw : s.latestScope + 1 < u32Size)
    (h : ScopeInv s) : ScopeInv (pushValueScope s).2 := by
  obtain ⟨h1, h2, h3⟩ := h
  have e : (s.latestScope + 1) % u32Size = s.latestScope + 1 := Nat.mod_eq_of_lt hw
  refine ⟨?_, ?_, ?_⟩
  · simp only [pushValueScope, List.map_append, List.map_cons, List.map_nil]
    rw [List.pairwise_append]
    refine ⟨h1, List.pairwise_singleton _ _, ?_⟩
    intro a ha b hb
    obtain ⟨c, hc, rfl⟩ := List.mem_map.mp ha
    rw [List.mem_singleton] at hb
    subst hb
    exact h2 c hc
  · intro c hc
    simp only [pushValueScope, List.mem_append, List.mem_singleton, e] at hc ⊢
    rcases hc with hc | hc
    · have := h2 c hc; omega
    · subst hc; show s.curScope < s.latestScope + 1; omega
  · simp only [pushValueScope]; exact le_refl _

theorem scopeInv_popValueScope [Inhabited V] (s : V8GoContext V) (x : Nat) (h : ScopeInv s) :
    ScopeInv (popValueScope s x).2 := by
  rcases popValueScope_cases s x with hf | ⟨st, c, -, hst, hp⟩
  · rw [hf]; exact h
  · rw [hp]
    obtain ⟨h1, h2, h3⟩ := h
    rw [hst, List.map_append, List.pairwise_append] at h1
    have hc : c.scope < s.curScope := h2 c (by rw [hst]; simp)
    refine ⟨h1.1, fun c' hc' => ?_, ?_⟩
    · exact h1.2.2 c'.scope (List.mem_map_of_mem _ hc') c.scope (by simp)
    · show c.scope ≤ s.latestScope; omega

theorem run_scopeInv [Inhabited V] (s : V8GoContext V) (ops : List (Op V))
    (h : ScopeInv s) (hw : s.latestScope + numPushes ops < u32Size) : ScopeInv (run s ops) := by
  induction ops generalizing s with
  | nil => exact h
  | cons o os ih =>
    cases o with
    | add v =>
      simp only [numPushes] at hw
      exact ih (addValue s v).2 h hw
    | push =>
      simp only [numPushes] at hw
      have e : (s.latestScope + 1) % u32Size = s.latestScope + 1 := Nat.mod_eq_of_lt (by omega)
      refine ih (pushValueScope s).2 (scopeInv_pushValueScope s (by omega) h) ?_
      simp only [pushValueScope, e]; omega
    | pop x =>
      simp only [numPushes] at hw
      refine ih (popValueScope s x).2 (scopeInv_popValueScope s x h) ?_
      rw [popValueScope_latestScope]; exact hw

/-! Closed scopes -/

theorem scanScopes_mem (index scope : Nat) (l : List ValueRef) :
    scanScopes index scope l = scope ∨ ∃ c ∈ l, scanScopes index scope l = c.scope := by
  induction l generalizing scope with
  | nil => exact Or.inl rfl
  | cons i rest ih =>
    by_cases h : index ≥ i.index
    · left; simp [scanScopes, h]
    · right
      rw [scanScopes, if_neg h]
      rcases ih i.scope with h1 | ⟨c, hc, h1⟩
      · exact ⟨i, List.mem_cons_self _ _, h1⟩
      · exact ⟨c, List.mem_cons_of_mem _ hc, h1⟩

theorem getValue_closed (s : V8GoContext V) (r : ValueRef) (h : Closed r.scope s) :
    getValue s r = GetResult.undefined := by
  unfold getValue
  split
  · have hne : r.scope ≠ scanScopes r.index s.curScope s.savedScopes.reverse := by
      rcases scanScopes_mem r.index s.curScope s.savedScopes.reverse with h1 | ⟨c, hc, h1⟩
      · rw [h1]; exact fun e => h.1 e.symm
      · rw [h1]; exact fun e => h.2.1 c (List.mem_reverse.mp hc) e.symm
    simp only [hne, if_false]
  · rfl

theorem closed_of_popValueScope [Inhabited V] (s : V8GoContext V) (id : Nat) (h : ScopeInv s)
    (hok : (popValueScope s id).1 = true) : Closed id (popValueScope s id).2 := by
  rcases popValueScope_cases s id with hf | ⟨st, c, hx, hst, hp⟩
  · rw [hf] at hok; exact absurd hok Bool.false_ne_true
  · rw [hp]
    obtain ⟨h1, h2, h3⟩ := h
    rw [hst, List.map_append, List.pairwise_append] at h1
    have hc : c.scope < s.curScope := h2 c (by rw [hst]; simp)
    refine ⟨?_, fun c' hc' => ?_, ?_⟩
    · show c.scope ≠ id; omega
    · have := h1.2.2 c'.scope (List.mem_map_of_mem _ hc') c.scope (by simp)
      omega
    · show id ≤ s.latestScope; omega

theorem closed_step [Inhabited V] (id : Nat) (s : V8GoContext V) (o : Op V) (h : Closed id s)
    (hw : o = Op.push → s.latestScope + 1 < u32Size) : Closed id (step s o) := by
  obtain ⟨h1, h2, h3⟩ := h
  cases o with
  | add v => exact ⟨h1, h2, h3⟩
  | push =>
    have e : (s.latestScope + 1) % u32Size = s.latestScope + 1 := Nat.mod_eq_of_lt (hw rfl)
    refine ⟨?_, ?_, ?_⟩
    · simp only [step, pushValueScope, e]; omega
    · intro c hc
      simp only [step, pushValueScope, List.mem_append, List.mem_singleton] at hc
      rcases hc with hc | hc
      · exact h2 c hc
      · subst hc; exact h1
    · simp only [step, pushValueScope, e]; omega
  | pop x =>
    rcases popValueScope_cases s x with hf | ⟨st, c, -, hst, hp⟩
    · simp only [step, hf]; exact ⟨h1, h2, h3⟩
    · simp only [step, hp]
      refine ⟨h2 c (by rw [hst]; simp), fun c' hc' => h2 c' (by rw [hst]; simp [hc']), h3⟩

theorem closed_run [Inhabited V] (id : Nat) (s : V8GoContext V) (ops : List (Op V))
    (h : Closed id s) (hw : s.latestScope + numPushes ops < u32Size) : Closed id (run s ops) := by
  induction ops generalizing s with
  | nil => exact h
  | cons o os ih =>
    cases o with
    | add v =>
      simp only [numPushes] at hw
      exact ih _ ⟨h.1, h.2.1, h.2.2⟩ hw
    | push =>
      simp only [numPushes] at hw
      have e : (s.latestScope + 1) % u32Size = s.latestScope + 1 := Nat.mod_eq_of_lt (by omega)
      refine ih _ (closed_step id s Op.push h (fun _ => by omega)) ?_
      simp only [step, pushValueScope, e]; omega
    | pop x =>
      simp only [numPushes] at hw
      rcases popValueScope_cases s x with hf | ⟨st, c, -, hst, hp⟩
      · simp only [run, step, hf]; exact ih _ h hw
      · refine ih _ ?_ ?_
        · simp only [step, hp]
          exact ⟨h.2.1 c (by rw [hst]; simp), fun c' hc' => h.2.1 c' (by rw [hst]; simp [hc']),
            h.2.2⟩
        · simp only [step, popValueScope_latestScope]; exact hw

theorem getValue_top (t : V8GoContext V) (st : List ValueRef) (c : ValueRef) (r : ValueRef)
    (hst : t.savedScopes = st ++ [c]) (hb : c.index ≤ r.index) (hs : r.scope = t.curScope)
    (hi : r.index < t.values.length) :
    getValue t r = GetResult.entry (t.values.get ⟨r.index, hi⟩) := by
  unfold getValue
  rw [dif_pos hi]
  simp only [hst, List.reverse_append, List.reverse_cons, List.reverse_nil, List.nil_append,
    List.singleton_append, scanScopes, ge_iff_le, hb, if_true, hs]

theorem getValue_readd [Inhabited V] (w : V8GoContext V) (v : V) (st : List ValueRef) (p : Nat)
    (h1 : w.values = []) (h3 : w.curScope = 2) (h4 : w.savedScopes = st ++ [⟨p, 0⟩]) :
    getValue (step w (Op.add v)) ⟨2, 0⟩ = GetResult.entry v := by
  have hw : (step w (Op.add v)).values = [v] := by
    simp only [step, addValue, h1, List.nil_append]
  have hi : (⟨2, 0⟩ : ValueRef).index < (step w (Op.add v)).values.length := by
    rw [hw]; exact Nat.zero_lt_one
  rw [getValue_top (step w (Op.add v)) st ⟨p, 0⟩ ⟨2, 0⟩ h4 (le_refl _) h3.symm hi]
  congr 1
  have h0 : (step w (Op.add v)).values[0]? = some v := by rw [hw]; rfl
  rw [List.getElem?_eq_getElem hi] at h0
  exact Option.some.inj h0

/-- After a scope was closed, `2 ^ 32` further pushes bring the counter back to the same id:
a value added then sits at index `0` of a scope carrying the stale id. -/
theorem getValue_after_wrap [Inhabited V] (t : V8GoContext V) (v : V) (hv : t.values = [])
    (hl : t.latestScope = 2) :
    getValue (run t (List.replicate u32Size Op.push ++ [Op.add v])) ⟨2, 0⟩
      = GetResult.entry v := by
  obtain ⟨h1, -, h3, st, p, h4⟩ := run_replicate_push_pos t u32Size (by decide)
  have e1 : (2 + u32Size) % u32Size = 2 := by decide
  have e2 : toU32 0 = 0 := by decide
  rw [run_concat]
  refine getValue_readd _ v st p (h1.trans hv) (h3.trans ?_) (h4.trans ?_)
  · rw [hl, e1]
  · rw [hv, List.length_nil, e2]

/-! Matching a pop with its push -/

theorem openAt_pushValueScope (s : V8GoContext V) :
    OpenAt (pushValueScope s).1 s.savedScopes ⟨s.curScope, toU32 s.values.length⟩
      (pushValueScope s).2 :=
  ⟨[], [], rfl, rfl, fun _ hx => absurd hx (List.not_mem_nil _), le_refl _⟩

theorem openAt_or_closed_step [Inhabited V] (id : Nat) (base : List ValueRef) (top : ValueRef)
    (hbase : ∀ c ∈ base, c.scope ≠ id) (htop : top.scope ≠ id) (s : V8GoContext V) (o : Op V)
    (hw : o = Op.push → s.latestScope + 1 < u32Size)
    (h : OpenAt id base top s ∨ Closed id s) :
    OpenAt id base top (step s o) ∨ Closed id (step s o) := by
  rcases h with ⟨newer, rest, hst, hids, hrest, hlat⟩ | hcl
  · cases o with
    | add v => exact Or.inl ⟨newer, rest, hst, hids, hrest, hlat⟩
    | push =>
      left
      have hw := hw rfl
      have e : (s.latestScope + 1) % u32Size = s.latestScope + 1 := Nat.mod_eq_of_lt hw
      refine ⟨newer ++ [⟨s.curScope, toU32 s.values.length⟩], rest ++ [s.latestScope + 1],
        ?_, ?_, ?_, ?_⟩
      · simp only [step, pushValueScope, hst, List.append_assoc, List.cons_append]
      · simp only [step, pushValueScope, e, List.map_append, List.map_cons, List.map_nil]
        rw [hids]; rfl
      · intro x hx
        rcases List.mem_append.mp hx with hx | hx
        · exact hrest x hx
        · rw [List.mem_singleton] at hx; omega
      · simp only [step, pushValueScope, e]; omega
    | pop x =>
      rcases popValueScope_cases s x with hf | ⟨st, c, -, hsc, hp⟩
      · simp only [step, hf]; exact Or.inl ⟨newer, rest, hst, hids, hrest, hlat⟩
      · simp only [step, hp]
        rcases List.eq_nil_or_concat newer with hn | ⟨nw, c', hn⟩
        · right
          subst hn
          have hh : base ++ [top] = st ++ [c] := by rw [← hst, hsc]
          obtain ⟨hb, ht⟩ := List.append_inj' hh rfl
          have htc : top = c := by simpa using ht
          subst hb; subst htc
          exact ⟨htop, hbase, hlat⟩
        · left
          rw [List.concat_eq_append] at hn
          subst hn
          have hh : (base ++ top :: nw) ++ [c'] = st ++ [c] := by rw [← hsc, hst]; simp
          obtain ⟨hb, ht⟩ := List.append_inj' hh rfl
          have htc : c' = c := by simpa using ht
          subst htc
          simp only [List.map_append, List.map_cons, List.map_nil] at hids
          obtain ⟨a, L, hL⟩ : ∃ a L, List.map ValueRef.scope nw ++ [c'.scope] = a :: L := by
            cases List.map ValueRef.scope nw with
            | nil => exact ⟨_, _, rfl⟩
            | cons a t => exact ⟨_, _, rfl⟩
          rw [hL, List.cons_append] at hids
          injection hids with ha hr
          refine ⟨nw, L, hb.symm, ?_, ?_, hlat⟩
          · show List.map ValueRef.scope nw ++ [c'.scope] = id :: L
            rw [hL, ha]
          · intro y hy
            exact hrest y (by rw [← hr]; exact List.mem_append_left _ hy)
  · right
    cases o with
    | add v => exact ⟨hcl.1, hcl.2.1, hcl.2.2⟩
    | push => exact closed_step id s Op.push hcl hw
    | pop x => exact closed_step id s (Op.pop x) hcl hw

theorem openAt_or_closed_run [Inhabited V] (id : Nat) (base : List ValueRef) (top : ValueRef)
    (hbase : ∀ c ∈ base, c.scope ≠ id) (htop : top.scope ≠ id) (s : V8GoContext V)
    (ops : List (Op V)) (hw : s.latestScope + numPushes ops < u32Size)
    (h : OpenAt id base top s ∨ Closed id s) :
    OpenAt id base top (run s ops) ∨ Closed id (run s ops) := by
  induction ops generalizing s with
  | nil => exact h
  | cons o os ih =>
    have hstep := openAt_or_closed_step id base top hbase htop s o
      (fun ho => by subst ho; simp only [numPushes] at hw; omega) h
    refine ih (step s o) ?_ hstep
    cases o with
    | add v => simpa only [numPushes] using hw
    | push =>
      simp only [numPushes] at hw
      have e : (s.latestScope + 1) % u32Size = s.latestScope + 1 := Nat.mod_eq_of_lt (by omega)
      simp only [step, pushValueScope, e]; omega
    | pop x =>
      simp only [numPushes] at hw
      simp only [step, popValueScope_latestScope]; exact hw

theorem popValueScope_of_openAt [Inhabited V] (id : Nat) (base : List ValueRef) (top : ValueRef)
    (s : V8GoContext V) (h : OpenAt id base top s ∨ Closed id s)
    (hok : (popValueScope s id).1 = true) :
    (popValueScope s id).2.values.length = top.index ∧
    (popValueScope s id).2.curScope = top.scope ∧
    (popValueScope s id).2.savedScopes = base := by
  rcases popValueScope_cases s id with hf | ⟨st, c, hx, hsc, hp⟩
  · rw [hf] at hok; exact absurd hok Bool.false_ne_true
  · rcases h with ⟨newer, rest, hst, hids, hrest, -⟩ | hcl
    · cases newer with
      | nil =>
        have hh : base ++ [top] = st ++ [c] := by rw [← hst, hsc]
        obtain ⟨hb, ht⟩ := List.append_inj' hh rfl
        have htc : top = c := by simpa using ht
        rw [hp, hb, htc]
        exact ⟨resize_length _ _, rfl, rfl⟩
      | cons n t =>
        exfalso
        simp only [List.map_cons, List.cons_append] at hids
        injection hids with _ hr
        have hmem : s.curScope ∈ rest := by rw [← hr]; simp
        have := hrest _ hmem
        omega
    · exact absurd hx.symm hcl.1

theorem pushPop_at_overflow [Inhabited V] (t : V8GoContext V)
    (hlen : t.values.length = u32Size) :
    (popValueScope (pushValueScope t).2 (pushValueScope t).1).1 = true ∧
    (popValueScope (pushValueScope t).2 (pushValueScope t).1).2.values.length
      ≠ t.values.length := by
  have hp := popValueScope_concat (pushValueScope t).2 t.savedScopes
    ⟨t.curScope, toU32 t.values.length⟩ rfl
  have hcur : (pushValueScope t).2.curScope = (pushValueScope t).1 := rfl
  rw [hcur] at hp
  rw [hp]
  refine ⟨rfl, ?_⟩
  simp only [resize_length, hlen, toU32, Nat.mod_self]
  decide

/-! Live refs -/

theorem resize_getElem? [Inhabited V] (l : List V) (n i : Nat) (a : V) (hin : i < n)
    (h : l[i]? = some a) : (resize l n)[i]? = some a := by
  obtain ⟨hi, -⟩ := List.getElem?_eq_some_iff.mp h
  have hlt : i < (l.take n).length := by
    rw [List.length_take]; omega
  rw [resize, List.getElem?_append_left hlt, List.getElem?_take_of_lt hin, h]

theorem scanScopes_newer (index cur x : Nat) (newer l2 : List ValueRef)
    (hn : ∀ c ∈ newer, index < c.index)
    (hx : (newer.map ValueRef.scope ++ [cur]).head? = some x) :
    scanScopes index cur (newer.reverse ++ l2) = scanScopes index x l2 := by
  induction newer generalizing l2 x with
  | nil =>
    simp only [List.map_nil, List.nil_append, List.head?_cons, Option.some.injEq] at hx
    subst hx; rfl
  | cons c t ih =>
    simp only [List.map_cons, List.cons_append, List.head?_cons, Option.some.injEq] at hx
    subst hx
    have hc : ¬ index ≥ c.index := by
      have := hn c (List.mem_cons_self _ _); omega
    obtain ⟨y, hy⟩ : ∃ y, (t.map ValueRef.scope ++ [cur]).head? = some y := by
      cases t.map ValueRef.scope with
      | nil => exact ⟨_, rfl⟩
      | cons a b => exact ⟨_, rfl⟩
    rw [List.reverse_cons, List.append_assoc, List.singleton_append,
      ih y (c :: l2) (fun c' hc' => hn c' (List.mem_cons_of_mem _ hc')) hy, scanScopes,
      if_neg hc]

theorem getValue_live (s : V8GoContext V) (r : ValueRef) (h : V) (older : List ValueRef)
    (hl : Live r h older s) (hold : ∀ c ∈ older, c.index ≤ r.index) :
    getValue s r = GetResult.entry h := by
  obtain ⟨newer, hst, hn, hx, hv⟩ := hl
  obtain ⟨hi, hget⟩ := List.getElem?_eq_some_iff.mp hv
  have hscan : scanScopes r.index s.curScope s.savedScopes.reverse = r.scope := by
    rw [hst, List.reverse_append, scanScopes_newer r.index s.curScope r.scope newer _ hn hx]
    cases ho : older.reverse with
    | nil => rfl
    | cons c t =>
      have hc : c ∈ older := List.mem_reverse.mp (by rw [ho]; exact List.mem_cons_self _ _)
      have := hold c hc
      rw [scanScopes, if_pos (by omega)]
  unfold getValue
  rw [dif_pos hi]
  simp only [hscan, if_true]
  congr 1

theorem live_addValue (s : V8GoContext V) (r : ValueRef) (h v : V) (older : List ValueRef)
    (hl : Live r h older s) : Live r h older (addValue s v).2 := by
  obtain ⟨newer, hst, hn, hx, hv⟩ := hl
  refine ⟨newer, hst, hn, hx, ?_⟩
  obtain ⟨hi, -⟩ := List.getElem?_eq_some_iff.mp hv
  simp only [addValue]
  rw [List.getElem?_append_left hi, hv]

theorem live_pushValueScope (s : V8GoContext V) (r : ValueRef) (h : V) (older : List ValueRef)
    (hlen : s.values.length < u32Size) (hl : Live r h older s) :
    Live r h older (pushValueScope s).2 := by
  obtain ⟨newer, hst, hn, hx, hv⟩ := hl
  obtain ⟨hi, -⟩ := List.getElem?_eq_some_iff.mp hv
  refine ⟨newer ++ [⟨s.curScope, toU32 s.values.length⟩], ?_, ?_, ?_, hv⟩
  · simp only [pushValueScope, hst, List.append_assoc]
  · intro c hc
    rcases List.mem_append.mp hc with hc | hc
    · exact hn c hc
    · rw [List.mem_singleton] at hc
      subst hc
      show r.index < toU32 s.values.length
      rw [toU32_of_lt _ hlen]; exact hi
  · simp only [pushValueScope, List.map_append, List.map_cons, List.map_nil]
    rw [List.head?_append_of_ne_nil _ (by simp)]
    exact hx

theorem live_popValueScope [Inhabited V] (s : V8GoContext V) (r : ValueRef) (h : V)
    (older : List ValueRef) (x : Nat) (hl : Live r h older s)
    (hwin : x = r.scope → (popValueScope s x).1 = false) :
    Live r h older (popValueScope s x).2 := by
  rcases popValueScope_cases s x with hf | ⟨st, c, hxc, hsc, hp⟩
  · rw [hf]; exact hl
  · obtain ⟨newer, hst, hn, hx, hv⟩ := hl
    rcases List.eq_nil_or_concat newer with hnil | ⟨nw, c', hcc⟩
    · exfalso
      subst hnil
      simp only [List.map_nil, List.nil_append, List.head?_cons, Option.some.injEq] at hx
      have := hwin (hxc.trans hx)
      rw [hp] at this
      exact Bool.noConfusion this
    · rw [List.concat_eq_append] at hcc
      subst hcc
      have hh : (older ++ nw) ++ [c'] = st ++ [c] := by rw [← hsc, hst]; simp
      obtain ⟨hb, ht⟩ := List.append_inj' hh rfl
      have htc : c' = c := by simpa using ht
      subst htc
      rw [hp]
      refine ⟨nw, hb.symm, fun c'' hc'' => hn c'' (List.mem_append_left _ hc''), ?_, ?_⟩
      · simp only [List.map_append, List.map_cons, List.map_nil] at hx
        rw [List.head?_append_of_ne_nil _ (by simp)] at hx
        exact hx
      · exact resize_getElem? _ _ _ _ (hn c' (by simp)) hv

theorem noPopSucceeds_spec [Inhabited V] (id : Nat) (s : V8GoContext V) (ops : List (Op V))
    (h : noPopSucceeds id s ops = true) :
    ∀ a b, ops = a ++ Op.pop id :: b → (popValueScope (run s a) id).1 = false := by
  induction ops generalizing s with
  | nil => intro a b hab; simp at hab
  | cons o os ih =>
    intro a b hab
    cases a with
    | nil =>
      simp only [List.nil_append, List.cons.injEq] at hab
      obtain ⟨ho, -⟩ := hab
      subst ho
      simp only [noPopSucceeds, decide_True, Bool.true_and, Bool.and_eq_true,
        Bool.not_eq_true'] at h
      exact h.1
    | cons o' a' =>
      simp only [List.cons_append, List.cons.injEq] at hab
      obtain ⟨ho, hos⟩ := hab
      subst ho
      have h' : noPopSucceeds id (step s o) os = true := by
        cases o with
        | add v => simpa only [noPopSucceeds] using h
        | push => simpa only [noPopSucceeds] using h
        | pop x =>
          simp only [noPopSucceeds, Bool.and_eq_true] at h
          exact h.2
      exact ih (step s o) h' a' b hos

theorem live_run [Inhabited V] (r : ValueRef) (h : V) (older : List ValueRef)
    (s : V8GoContext V) (ops : List (Op V))
    (hl : Live r h older s)
    (hpush : ∀ a b, ops = a ++ Op.push :: b → (run s a).values.length < u32Size)
    (hwin : ∀ a b, ops = a ++ Op.pop r.scope :: b →
      (popValueScope (run s a) r.scope).1 = false) :
    Live r h older (run s ops) := by
  induction ops generalizing s with
  | nil => exact hl
  | cons o os ih =>
    have hwin' : ∀ a b, os = a ++ Op.pop r.scope :: b →
        (popValueScope (run (step s o) a) r.scope).1 = false := by
      intro a b hab
      exact hwin (o :: a) b (by rw [hab]; rfl)
    have hpush' : ∀ a b, os = a ++ Op.push :: b →
        (run (step s o) a).values.length < u32Size := by
      intro a b hab
      exact hpush (o :: a) b (by rw [hab]; rfl)
    cases o with
    | add v => exact ih (addValue s v).2 (live_addValue s r h v older hl) hpush' hwin'
    | push =>
      exact ih (pushValueScope s).2 (live_pushValueScope s r h older (hpush [] os rfl) hl)
        hpush' hwin'
    | pop x =>
      refine ih (popValueScope s x).2 (live_popValueScope s r h older x hl ?_) hpush' hwin'
      intro hx
      subst hx
      exact hwin [] os rfl

theorem getValue_at_overflow (t : V8GoContext V) (a b : V)
    (hlen : t.values.length = u32Size) (h0 : t.values[0]? = some a) (hst : t.savedScopes = []) :
    getValue (addValue t b).2 (addValue t b).1 = GetResult.entry a := by
  have hidx : (addValue t b).1.index = 0 := by
    simp only [addValue, toU32, hlen, Nat.mod_self]
  apply getValue_live _ _ a []
  · refine ⟨[], hst, fun _ hc => absurd hc (List.not_mem_nil _), rfl, ?_⟩
    rw [hidx]
    obtain ⟨hi, -⟩ := List.getElem?_eq_some_iff.mp h0
    simp only [addValue]
    rw [List.getElem?_append_left hi, h0]
  · intro c hc; exact absurd hc (List.not_mem_nil _)

theorem pushValueScope_wraps (t : V8GoContext V) (ht : t.latestScope = u32Size - 2) :
    ¬ ((pushValueScope t).1 < (pushValueScope (pushValueScope t).2).1) := by
  simp only [pushValueScope, ht]
  decide

/-! Single-call contracts -/

/-- C3: `popValueScope(x)` returns true exactly when `x` is the current scope id and the
checkpoint stack is non-empty; in the root state (empty stack) popping the current scope
id fails. -/
theorem popValueScope_true_iff [Inhabited V] (s : V8GoContext V) (x : Nat) :
    ((popValueScope s x).1 = true ↔ x = s.curScope ∧ s.savedScopes ≠ []) ∧
    (s.savedScopes = [] → (popValueScope s s.curScope).1 = false) := by
  constructor
  · by_cases h : x ≠ s.curScope ∨ s.savedScopes = []
    · rw [popValueScope_fail s x h]
      simp only [Bool.false_eq_true, false_iff, not_and, not_not]
      intro hx
      rcases h with h | h
      · exact absurd hx h
      · exact h
    · have h2 : x = s.curScope ∧ s.savedScopes ≠ [] := by
        constructor
        · by_contra hx; exact h (Or.inl hx)
        · intro he; exact h (Or.inr he)
      simp [popValueScope, h, h2]
  · intro he
    rw [popValueScope_fail s s.curScope (Or.inr he)]

/-- C4: whenever `popValueScope(x)` returns false, the whole context state (value table,
checkpoint stack, current scope id) is the same after the call as before. -/
theorem popValueScope_false_unchanged [Inhabited V] (s : V8GoContext V) (x : Nat)
    (h : (popValueScope s x).1 = false) : (popValueScope s x).2 = s := by
  by_cases hc : x ≠ s.curScope ∨ s.savedScopes = []
  · rw [popValueScope_fail s x hc]
  · simp [popValueScope, hc] at h

/-- Witness for C4 (scenario C): scope 2 is current and a scope id 3 that was never pushed
is popped; also a double pop of scope 2 in the root state. -/
theorem popValueScope_false_unchanged_witness :
    (popValueScope (run (fresh 1 1) [Op.push, Op.add 10]) 3).1 = false ∧
    (popValueScope (run (fresh 1 1) [Op.push, Op.add 10]) 3).2
      = (run (fresh 1 1) [Op.push, Op.add 10] : V8GoContext Nat) :=
  ⟨by decide, popValueScope_false_unchanged _ 3 (by decide)⟩

/-- C8: `getValue(r)` returns the table entry at `r.index` exactly when `r.index` is below
the table length and the owner computed by the specification's replay of the checkpoint
stack equals `r.scope`; in every other case it returns the undefined result. -/
theorem getValue_eq_ownerSpec (s : V8GoContext V) (r : ValueRef) :
    getValue s r =
      if h : r.index < s.values.length ∧ ownerSpec s r.index = r.scope then
        GetResult.entry (s.values.get ⟨r.index, h.1⟩)
      else GetResult.undefined := by
  have hscan : scanScopes r.index s.curScope s.savedScopes.reverse = ownerSpec s r.index := by
    rw [scanScopes_eq]; rfl
  unfold getValue
  by_cases hlt : r.index < s.values.length
  · by_cases ho : ownerSpec s r.index = r.scope
    · have hc : r.index < s.values.length ∧ ownerSpec s r.index = r.scope := ⟨hlt, ho⟩
      rw [dif_pos hlt, dif_pos hc]
      simp only [hscan, ho, if_true]
    · have hc : ¬ (r.index < s.values.length ∧ ownerSpec s r.index = r.scope) :=
        fun hh => ho hh.2
      rw [dif_pos hlt, dif_neg hc]
      simp only [hscan]
      rw [if_neg (fun e => ho e.symm)]
  · have hc : ¬ (r.index < s.values.length ∧ ownerSpec s r.index = r.scope) :=
      fun hh => hlt hh.1
    rw [dif_neg hlt, dif_neg hc]

/-- C9 as stated fails once the table holds `2 ^ 32` entries: after `2 ^ 32` calls of
`addValue` on a fresh context the next `addValue` returns index `0`, not the table length. -/
theorem addValue_ref_counterexample :
    (addValue (run (fresh 1 1) (List.replicate u32Size (Op.add 7))) 8).1
      ≠ ⟨(run (fresh 1 1) (List.replicate u32Size (Op.add 7))).curScope,
         (run (fresh 1 1) (List.replicate u32Size (Op.add 7))).values.length⟩ := by
  rw [run_replicate_add]
  intro h
  simp only [addValue, fresh, List.nil_append, List.length_replicate] at h
  simp only [toU32, Nat.mod_self] at h
  injection h with h1 h2
  rw [u32Size_eq] at h2
  omega

/-- C9 (amended): when the table holds fewer than `2 ^ 32` entries, `addValue(h)` returns
`{scope: current scope id, index: table length before the call}`; the table afterwards is
the old table with `h` appended (length plus one, earlier entries unchanged); checkpoint
stack and current scope id are unchanged. -/
theorem addValue_contract (s : V8GoContext V) (h : V) (hlen : s.values.length < u32Size) :
    (addValue s h).1 = ⟨s.curScope, s.values.length⟩ ∧
    (addValue s h).2.values = s.values ++ [h] ∧
    (addValue s h).2.values.length = s.values.length + 1 ∧
    (addValue s h).2.savedScopes = s.savedScopes ∧
    (addValue s h).2.curScope = s.curScope := by
  simp [addValue, toU32_of_lt _ hlen]

/-- Witness for C9: the second `addValue` inside scope 2. -/
theorem addValue_contract_witness :
    (run (fresh 1 1) [Op.push, Op.add 10] : V8GoContext Nat).values.length < u32Size ∧
    (addValue (run (fresh 1 1) [Op.push, Op.add 10]) 20).1 = ⟨2, 1⟩ ∧
    (addValue (run (fresh 1 1) [Op.push, Op.add 10]) 20).2.values = [10, 20] := by
  have hlen : (run (fresh 1 1) [Op.push, Op.add 10] : V8GoContext Nat).values.length < u32Size := by
    decide
  have h := addValue_contract (run (fresh 1 1) [Op.push, Op.add 10]) 20 hlen
  refine ⟨hlen, ?_, ?_⟩
  · rw [h.1]; decide
  · rw [h.2.1]; decide

/-- C10 as stated fails when the 32-bit scope counter wraps: after `2 ^ 32 - 2` pushes on
a fresh context whose counter starts at 1 the current scope id is `2 ^ 32 - 1`, and the
next `pushValueScope` returns `0`, which is not larger. -/
theorem pushValueScope_larger_counterexample :
    ¬ ((run (fresh 1 1 : V8GoContext Nat) (List.replicate (u32Size - 2) Op.push)).curScope
        < (pushValueScope
            (run (fresh 1 1 : V8GoContext Nat) (List.replicate (u32Size - 2) Op.push))).1) := by
  obtain ⟨-, h2, h3, -⟩ :=
    run_replicate_push_pos (fresh 1 1 : V8GoContext Nat) (u32Size - 2) (by decide)
  rw [pushValueScope_fst, h2, h3]
  decide

/-- C10 (amended): in a state whose current scope id is at most the latest allocated id,
whose counter is below `2 ^ 32 - 1` and whose table holds fewer than `2 ^ 32` entries,
`pushValueScope` pushes the checkpoint `{parentScopeId: current scope id, baseIndex: table
length}`, returns an id strictly larger than the previous current scope id, makes it the
current scope id and leaves the table unchanged. -/
theorem pushValueScope_contract (s : V8GoContext V) (hcur : s.curScope ≤ s.latestScope)
    (hwrap : s.latestScope + 1 < u32Size) (hlen : s.values.length < u32Size) :
    (pushValueScope s).2.savedScopes = s.savedScopes ++ [⟨s.curScope, s.values.length⟩] ∧
    s.curScope < (pushValueScope s).1 ∧
    (pushValueScope s).2.curScope = (pushValueScope s).1 ∧
    (pushValueScope s).2.values = s.values := by
  simp only [pushValueScope, toU32_of_lt _ hlen, Nat.mod_eq_of_lt hwrap]
  exact ⟨trivial, by omega, trivial, trivial⟩

/-- Witness for C10: the nested push of scenario B. -/
theorem pushValueScope_contract_witness :
    (pushValueScope (run (fresh 1 1) [Op.push, Op.add 10] : V8GoContext Nat)).2.savedScopes
      = [⟨1, 0⟩, ⟨2, 1⟩] ∧
    (run (fresh 1 1) [Op.push, Op.add 10] : V8GoContext Nat).curScope
      < (pushValueScope (run (fresh 1 1) [Op.push, Op.add 10] : V8GoContext Nat)).1 := by
  have h := pushValueScope_contract (run (fresh 1 1) [Op.push, Op.add 10] : V8GoContext Nat)
    (by decide) (by decide) (by decide)
  refine ⟨?_, h.2.1⟩
  rw [h.1]; decide

/-- C5 as stated fails in a state reached through `overflowOps`: the top checkpoint has
base index `2 ^ 32 - 1` while the table is empty, `popValueScope(2)` succeeds, and the
table afterwards is not the old table cut to that length (it was padded with `2 ^ 32 - 1`
empty entries). -/
theorem popValueScope_cut_counterexample :
    (popValueScope (run (fresh 1 1) overflowOps) 2).1 = true ∧
    (run (fresh 1 1) overflowOps).savedScopes.getLast? = some ⟨1, u32Size - 1⟩ ∧
    (popValueScope (run (fresh 1 1) overflowOps) 2).2.values
      ≠ (run (fresh 1 1) overflowOps).values.take (u32Size - 1) := by
  rw [run_overflowOps]
  have h := popValueScope_concat
    ({ values := [], savedScopes := [⟨1, u32Size - 1⟩], curScope := 2,
       latestScope := 3 } : V8GoContext Nat) [] ⟨1, u32Size - 1⟩ rfl
  simp only at h
  rw [h]
  refine ⟨rfl, rfl, ?_⟩
  intro hEq
  have hl := congrArg List.length hEq
  simp only [resize_length, List.take_nil, List.length_nil] at hl
  exact absurd hl (by decide)

/-- C5 (amended): when `popValueScope(x)` returns true, `c` is the top checkpoint before the
call and `c.baseIndex` does not exceed the table length, then afterwards the checkpoint
stack is the old stack without its top element, the current scope id is `c.parentScopeId`,
and the table is the old table cut to length `c.baseIndex`. -/
theorem popValueScope_true_effect [Inhabited V] (s : V8GoContext V) (x : Nat) (c : ValueRef)
    (htop : s.savedScopes.getLast? = some c) (hok : (popValueScope s x).1 = true)
    (hle : c.index ≤ s.values.length) :
    (popValueScope s x).2.savedScopes = s.savedScopes.dropLast ∧
    (popValueScope s x).2.curScope = c.scope ∧
    (popValueScope s x).2.values = s.values.take c.index ∧
    (popValueScope s x).2.values.length = c.index := by
  rw [popValueScope_true_state s x c htop hok]
  refine ⟨rfl, rfl, resize_of_le _ _ hle, resize_length _ _⟩

/-- Witness for C5 (scenario B): closing the nested scope 3 cuts the table back to length 1
and makes scope 2 current again. -/
theorem popValueScope_true_effect_witness :
    (run (fresh 1 1) [Op.push, Op.add 10, Op.push, Op.add 20] : V8GoContext Nat).savedScopes.getLast?
      = some ⟨2, 1⟩ ∧
    (popValueScope (run (fresh 1 1) [Op.push, Op.add 10, Op.push, Op.add 20]) 3).1 = true ∧
    (popValueScope (run (fresh 1 1) [Op.push, Op.add 10, Op.push, Op.add 20]) 3).2.savedScopes
      = [⟨1, 0⟩] ∧
    (popValueScope (run (fresh 1 1) [Op.push, Op.add 10, Op.push, Op.add 20]) 3).2.curScope = 2 ∧
    (popValueScope (run (fresh 1 1) [Op.push, Op.add 10, Op.push, Op.add 20]) 3).2.values
      = [10] := by
  have h := popValueScope_true_effect
    (run (fresh 1 1) [Op.push, Op.add 10, Op.push, Op.add 20] : V8GoContext Nat) 3 ⟨2, 1⟩
    (by decide) (by decide) (by decide)
  refine ⟨by decide, by decide, ?_, h.2.1, ?_⟩
  · rw [h.1]; decide
  · rw [h.2.2.1]; decide

/-! Scope ids handed out by `pushValueScope` -/

/-- C7 as stated fails when the 32-bit counter wraps: on a fresh context whose counter
starts at 1, the push number `2 ^ 32 - 2` returns `2 ^ 32 - 1` and the next push returns `0`. -/
theorem pushValueScope_increasing_counterexample :
    ¬ ((pushValueScope
          (run (fresh 1 1 : V8GoContext Nat) (List.replicate (u32Size - 3) Op.push))).1
        < (pushValueScope
            (pushValueScope
              (run (fresh 1 1 : V8GoContext Nat) (List.replicate (u32Size - 3) Op.push))).2).1) := by
  obtain ⟨-, h2, -, -⟩ :=
    run_replicate_push_pos (fresh 1 1 : V8GoContext Nat) (u32Size - 3) (by decide)
  have h3 : (1 + (u32Size - 3)) % u32Size = u32Size - 2 := by decide
  exact pushValueScope_wraps _ (h2.trans h3)

/-- C7 (amended): as long as the 32-bit counter does not wrap (the latest allocated id plus
the number of pushes in the sequence stays below `2 ^ 32`), the id returned by a
`pushValueScope` call is strictly greater than the id returned by any earlier
`pushValueScope` call, whatever calls (adds, successful or failed pops, other pushes) lie in
between. -/
theorem pushValueScope_increasing [Inhabited V] (s : V8GoContext V) (pre mid : List (Op V))
    (hwrap : s.latestScope + numPushes (pre ++ Op.push :: mid ++ [Op.push]) < u32Size) :
    (pushValueScope (run s pre)).1
      < (pushValueScope (run (pushValueScope (run s pre)).2 mid)).1 := by
  simp only [numPushes_append, numPushes, List.cons_append] at hwrap
  have h1 : (run s pre).latestScope = s.latestScope + numPushes pre :=
    run_latestScope s pre (by omega)
  have e1 : ((run s pre).latestScope + 1) % u32Size = (run s pre).latestScope + 1 :=
    Nat.mod_eq_of_lt (by omega)
  have h2 : (pushValueScope (run s pre)).2.latestScope = (run s pre).latestScope + 1 := by
    simp only [pushValueScope, e1]
  have h3 : (run (pushValueScope (run s pre)).2 mid).latestScope
      = (run s pre).latestScope + 1 + numPushes mid := by
    rw [run_latestScope _ mid (by omega), h2]
  rw [pushValueScope_fst, pushValueScope_fst, h3, e1, Nat.mod_eq_of_lt (by omega)]
  omega

/-- Witness for C7: two pushes separated by an add, a failed pop and a successful pop. -/
theorem pushValueScope_increasing_witness :
    (fresh 1 1 : V8GoContext Nat).latestScope
        + numPushes ([Op.add 5] ++ Op.push :: [Op.add 6, Op.pop 9, Op.pop 2] ++ [Op.push])
      < u32Size ∧
    (pushValueScope (run (fresh 1 1 : V8GoContext Nat) [Op.add 5])).1
      < (pushValueScope
          (run (pushValueScope (run (fresh 1 1 : V8GoContext Nat) [Op.add 5])).2
            [Op.add 6, Op.pop 9, Op.pop 2])).1 :=
  ⟨by decide, pushValueScope_increasing (fresh 1 1) [Op.add 5] [Op.add 6, Op.pop 9, Op.pop 2]
    (by decide)⟩

/-! Lifetime of refs -/

/-- C1 as stated fails once the table holds `2 ^ 32` entries: after `2 ^ 32` calls
`addValue(7)` on a fresh context, `addValue(8)` returns a ref with index `0`, and
dereferencing that ref immediately afterwards yields the entry `7`, not `8`. -/
theorem getValue_fresh_ref_counterexample :
    getValue (addValue (run (fresh 1 1) (List.replicate u32Size (Op.add 7))) 8).2
        (addValue (run (fresh 1 1) (List.replicate u32Size (Op.add 7))) 8).1
      ≠ GetResult.entry 8 := by
  rw [run_replicate_add]
  rw [getValue_at_overflow _ 7 8
    (by simp only [fresh, List.nil_append, List.length_replicate])
    (by simp only [fresh, List.nil_append]
        exact List.getElem?_replicate_of_lt (by decide))
    rfl]
  intro h
  injection h with h
  exact absurd h (by decide)

/-- C1 (amended): as long as the table holds fewer than `2 ^ 32` entries whenever
`pushValueScope` is called and when `addValue(h)` itself is called, a ref `r` returned by
`addValue(h)` while scope `s` was current dereferences to exactly `h` immediately
afterwards and after every later call of the sequence (adds, nested pushes, successful pops
of nested scopes, failed pops), up to the first successful `popValueScope(s)`. -/
theorem getValue_live_until_pop [Inhabited V] (c0 l0 : Nat) (pre mid : List (Op V)) (h : V)
    (hpush : ∀ a b, pre ++ Op.add h :: mid = a ++ Op.push :: b →
      (run (fresh c0 l0) a).values.length < u32Size)
    (hlen : (run (fresh c0 l0) pre).values.length < u32Size)
    (hwin : ∀ a b, mid = a ++ Op.pop (run (fresh c0 l0) pre).curScope :: b →
      (popValueScope (run (fresh c0 l0) (pre ++ Op.add h :: a))
        (run (fresh c0 l0) pre).curScope).1 = false) :
    getValue (run (fresh c0 l0) (pre ++ Op.add h :: mid)) (addValue (run (fresh c0 l0) pre) h).1
      = GetResult.entry h := by
  have hinv : IndexInv (run (fresh c0 l0) pre) :=
    run_fresh_indexInv c0 l0 pre
      (fun a b hab => hpush a (b ++ Op.add h :: mid) (by rw [hab]; simp))
  have hpush2 : ∀ a b, mid = a ++ Op.push :: b →
      (run (addValue (run (fresh c0 l0) pre) h).2 a).values.length < u32Size := by
    intro a b hab
    have := hpush (pre ++ Op.add h :: a) b (by rw [hab]; simp)
    rwa [run_append, run, step] at this
  have hwin2 : ∀ a b, mid = a ++ Op.pop (run (fresh c0 l0) pre).curScope :: b →
      (popValueScope (run (addValue (run (fresh c0 l0) pre) h).2 a)
        (run (fresh c0 l0) pre).curScope).1 = false := by
    intro a b hab
    have := hwin a b hab
    rwa [run_append, run, step] at this
  rw [run_append, run, step]
  generalize run (fresh c0 l0) pre = s1 at hinv hlen hpush2 hwin2 ⊢
  have hidx : (addValue s1 h).1.index = s1.values.length := toU32_of_lt _ hlen
  apply getValue_live _ _ h s1.savedScopes
  · apply live_run _ h s1.savedScopes (addValue s1 h).2 mid
    · refine ⟨[], (List.append_nil _).symm, fun _ hc => absurd hc (List.not_mem_nil _), rfl, ?_⟩
      rw [hidx]
      exact List.getElem?_concat_length _ _
    · exact hpush2
    · exact hwin2
  · intro c hc
    rw [hidx]
    exact hinv.2 c hc

/-- Witness for C1 (scenario B): the ref created in scope 2 stays valid while the nested
scope 3 is opened, filled, popped, and while `popValueScope(2)` is attempted (and fails)
from inside scope 3. -/
theorem getValue_live_until_pop_witness :
    pushesBelow (fresh 1 1 : V8GoContext Nat)
      ([Op.push] ++ Op.add 10 :: [Op.push, Op.add 20, Op.pop 2, Op.pop 3, Op.add 30]) = true ∧
    (run (fresh 1 1 : V8GoContext Nat) [Op.push]).values.length < u32Size ∧
    noPopSucceeds (run (fresh 1 1 : V8GoContext Nat) [Op.push]).curScope
      (run (fresh 1 1) ([Op.push] ++ [Op.add 10]))
      [Op.push, Op.add 20, Op.pop 2, Op.pop 3, Op.add 30] = true ∧
    getValue
      (run (fresh 1 1) ([Op.push] ++ Op.add 10
        :: [Op.push, Op.add 20, Op.pop 2, Op.pop 3, Op.add 30]))
      (addValue (run (fresh 1 1) [Op.push]) 10).1 = GetResult.entry 10 :=
  ⟨by decide, by decide, by decide,
    getValue_live_until_pop 1 1 [Op.push] [Op.push, Op.add 20, Op.pop 2, Op.pop 3, Op.add 30] 10
      (pushesBelow_spec (fresh 1 1)
        ([Op.push] ++ Op.add 10 :: [Op.push, Op.add 20, Op.pop 2, Op.pop 3, Op.add 30])
        (by decide))
      (by decide)
      (fun a b hab => by
        have h := noPopSucceeds_spec
          (run (fresh 1 1 : V8GoContext Nat) [Op.push]).curScope
          (run (fresh 1 1) ([Op.push] ++ [Op.add 10]))
          [Op.push, Op.add 20, Op.pop 2, Op.pop 3, Op.add 30] (by decide) a b hab
        rw [← run_append] at h
        simpa using h)⟩

/-- C2 as stated fails when the 32-bit counter wraps: scope 2 is opened, a value is added
(ref `{2, 0}`), scope 2 is popped successfully; after `2 ^ 32` further pushes the current
scope id is 2 again, and once a new value sits at index 0 the stale ref `{2, 0}`
dereferences to that new entry instead of the undefined result. -/
theorem getValue_stale_counterexample :
    (addValue (run (fresh 1 1) [Op.push]) 7).1 = ⟨2, 0⟩ ∧
    (popValueScope (run (fresh 1 1) [Op.push, Op.add 7]) 2).1 = true ∧
    getValue
      (run (run (fresh 1 1) [Op.push, Op.add 7, Op.pop 2])
        (List.replicate u32Size Op.push ++ [Op.add 8])) ⟨2, 0⟩ ≠ GetResult.undefined := by
  refine ⟨by decide, by decide, ?_⟩
  rw [getValue_after_wrap _ 8 (by decide) (by decide)]
  exact fun h => GetResult.noConfusion h

/-- C2 (amended): as long as the 32-bit scope counter does not wrap during the sequence and
the initial current scope id is at most the initial counter, once `popValueScope(id)` has
returned true, `getValue(r)` yields the undefined result for every ref `r` that `addValue`
returned while `id` was current, in every later state of the context. -/
theorem getValue_stale [Inhabited V] (c0 l0 : Nat) (pre mid post : List (Op V)) (h : V)
    (hc : c0 ≤ l0)
    (hwrap : l0 + numPushes
        (pre ++ Op.add h :: mid ++ Op.pop (run (fresh c0 l0) pre).curScope :: post) < u32Size)
    (hok : (popValueScope (run (fresh c0 l0) (pre ++ Op.add h :: mid))
        (run (fresh c0 l0) pre).curScope).1 = true) :
    getValue
      (run (fresh c0 l0)
        (pre ++ Op.add h :: mid ++ Op.pop (run (fresh c0 l0) pre).curScope :: post))
      (addValue (run (fresh c0 l0) pre) h).1 = GetResult.undefined := by
  simp only [numPushes_append, numPushes] at hwrap
  have hl0 : (fresh c0 l0 : V8GoContext V).latestScope = l0 := rfl
  have hinv : ScopeInv (run (fresh c0 l0) (pre ++ Op.add h :: mid)) :=
    run_scopeInv _ _ (scopeInv_fresh c0 l0 hc)
      (by simp only [numPushes_append, numPushes, hl0]; omega)
  have hlat : (run (fresh c0 l0) (pre ++ Op.add h :: mid)).latestScope
      = l0 + (numPushes pre + numPushes mid) := by
    rw [run_latestScope _ _ (by simp only [numPushes_append, numPushes, hl0]; omega)]
    simp only [numPushes_append, numPushes, hl0]
  have hclosed := closed_of_popValueScope _ _ hinv hok
  rw [run_append, run, step]
  apply getValue_closed
  apply closed_run
  · exact hclosed
  · rw [popValueScope_latestScope, hlat]; omega

/-- Witness for C2: scope 2 is opened, two values are added, scope 2 is popped; after a new
scope has put a value at index 0 again, the old ref `{2, 0}` is still rejected. -/
theorem getValue_stale_witness :
    (addValue (run (fresh 1 1) [Op.push]) 10).1 = ⟨2, 0⟩ ∧
    (popValueScope (run (fresh 1 1) ([Op.push] ++ Op.add 10 :: [Op.add 20]))
      (run (fresh 1 1 : V8GoContext Nat) [Op.push]).curScope).1 = true ∧
    getValue
      (run (fresh 1 1)
        ([Op.push] ++ Op.add 10 :: [Op.add 20]
          ++ Op.pop (run (fresh 1 1 : V8GoContext Nat) [Op.push]).curScope
            :: [Op.push, Op.add 30]))
      (addValue (run (fresh 1 1) [Op.push]) 10).1 = GetResult.undefined :=
  ⟨by decide, by decide,
    getValue_stale 1 1 [Op.push] [Op.add 20] [Op.push, Op.add 30] 10 (by decide) (by decide)
      (by decide)⟩

/-- C6 as stated fails once the table holds `2 ^ 32` entries: a scope pushed at table length
`2 ^ 32` records base index `0`, and popping it leaves the table empty instead of at the
length it had when the push was made. -/
theorem popValueScope_restores_counterexample :
    (popValueScope
        (pushValueScope (run (fresh 1 1) (List.replicate u32Size (Op.add 7)))).2
        (pushValueScope (run (fresh 1 1) (List.replicate u32Size (Op.add 7)))).1).1 = true ∧
    (popValueScope
        (pushValueScope (run (fresh 1 1) (List.replicate u32Size (Op.add 7)))).2
        (pushValueScope (run (fresh 1 1) (List.replicate u32Size (Op.add 7)))).1).2.values.length
      ≠ (run (fresh 1 1) (List.replicate u32Size (Op.add 7))).values.length := by
  rw [run_replicate_add]
  exact pushPop_at_overflow _ (by simp only [fresh, List.nil_append, List.length_replicate])

/-- C6 (amended): as long as the table holds fewer than `2 ^ 32` entries when the push is
made, the 32-bit scope counter does not wrap during the sequence and the initial current
scope id is at most the initial counter: when `popValueScope(id)` returns true, the table
length after the call equals the table length at the moment of the `pushValueScope` call
that returned `id`, and the current scope id becomes the one that was current just before
that push. -/
theorem popValueScope_restores [Inhabited V] (c0 l0 : Nat) (pre mid : List (Op V))
    (hc : c0 ≤ l0) (hlen : (run (fresh c0 l0) pre).values.length < u32Size)
    (hwrap : l0 + numPushes (pre ++ Op.push :: mid) < u32Size)
    (hok : (popValueScope (run (fresh c0 l0) (pre ++ Op.push :: mid))
        (pushValueScope (run (fresh c0 l0) pre)).1).1 = true) :
    (popValueScope (run (fresh c0 l0) (pre ++ Op.push :: mid))
        (pushValueScope (run (fresh c0 l0) pre)).1).2.values.length
      = (run (fresh c0 l0) pre).values.length ∧
    (popValueScope (run (fresh c0 l0) (pre ++ Op.push :: mid))
        (pushValueScope (run (fresh c0 l0) pre)).1).2.curScope
      = (run (fresh c0 l0) pre).curScope := by
  simp only [numPushes_append, numPushes] at hwrap
  have hl0 : (fresh c0 l0 : V8GoContext V).latestScope = l0 := rfl
  have hinv : ScopeInv (run (fresh c0 l0) pre) :=
    run_scopeInv _ _ (scopeInv_fresh c0 l0 hc) (by rw [hl0]; omega)
  have hlat : (run (fresh c0 l0) pre).latestScope = l0 + numPushes pre := by
    rw [run_latestScope _ _ (by rw [hl0]; omega), hl0]
  rw [run_append, run, step] at hok ⊢
  generalize run (fresh c0 l0) pre = s1 at hinv hlat hlen hok ⊢
  obtain ⟨h1, h2, h3⟩ := hinv
  have e : (s1.latestScope + 1) % u32Size = s1.latestScope + 1 := Nat.mod_eq_of_lt (by omega)
  have hid : (pushValueScope s1).1 = s1.latestScope + 1 := by rw [pushValueScope_fst, e]
  have hopen := openAt_or_closed_run (pushValueScope s1).1 s1.savedScopes
    ⟨s1.curScope, toU32 s1.values.length⟩
    (fun c hc' => by have := h2 c hc'; rw [hid]; omega)
    (by rw [hid]; show s1.curScope ≠ s1.latestScope + 1; omega)
    (pushValueScope s1).2 mid
    (by simp only [pushValueScope, e]; omega)
    (Or.inl (openAt_pushValueScope s1))
  obtain ⟨r1, r2, -⟩ := popValueScope_of_openAt _ _ _ _ hopen hok
  refine ⟨?_, r2⟩
  rw [r1]
  exact toU32_of_lt _ hlen

/-- Witness for C6 (scenario B): scope 3 is pushed at table length 1 inside scope 2; after a
value was added in scope 3, `popValueScope(3)` brings the length back to 1 and the current
scope back to 2. -/
theorem popValueScope_restores_witness :
    (popValueScope (run (fresh 1 1 : V8GoContext Nat) ([Op.push, Op.add 10] ++ Op.push :: [Op.add 20]))
        (pushValueScope (run (fresh 1 1 : V8GoContext Nat) [Op.push, Op.add 10])).1).1 = true ∧
    (popValueScope (run (fresh 1 1 : V8GoContext Nat) ([Op.push, Op.add 10] ++ Op.push :: [Op.add 20]))
        (pushValueScope (run (fresh 1 1 : V8GoContext Nat) [Op.push, Op.add 10])).1).2.values.length
      = (run (fresh 1 1 : V8GoContext Nat) [Op.push, Op.add 10]).values.length ∧
    (popValueScope (run (fresh 1 1 : V8GoContext Nat) ([Op.push, Op.add 10] ++ Op.push :: [Op.add 20]))
        (pushValueScope (run (fresh 1 1 : V8GoContext Nat) [Op.push, Op.add 10])).1).2.curScope
      = (run (fresh 1 1 : V8GoContext Nat) [Op.push, Op.add 10]).curScope :=
  ⟨by decide,
    popValueScope_restores 1 1 [Op.push, Op.add 10] [Op.add 20] (by decide) (by decide)
      (by decide) (by decide)⟩

/-! Dereferencing is total and read-only -/

/-- C11: for every context state and every ref, `getValue` returns a result; it reads the
table only in the branch guarded by `r.index < table length` (an entry it returns is the
entry at that in-range index); when `r.index ≥ table length` the result is the undefined
sentinel; and the state after the call (table, checkpoint stack, current scope id) is the
state before it. -/
theorem getValue_total_readonly (s : V8GoContext V) (r : ValueRef) :
    (getValueCall s r).1 = getValue s r ∧
    (getValue s r = GetResult.undefined ∨
      ∃ h : r.index < s.values.length, getValue s r = GetResult.entry (s.values.get ⟨r.index, h⟩)) ∧
    (s.values.length ≤ r.index → getValue s r = GetResult.undefined) ∧
    (getValueCall s r).2 = s ∧
    (getValueCall s r).2.values = s.values ∧
    (getValueCall s r).2.savedScopes = s.savedScopes ∧
    (getValueCall s r).2.curScope = s.curScope := by
  have hst : (getValueCall s r).2 = s := by
    unfold getValueCall
    split
    · dsimp only
      split <;> rfl
    · rfl
  refine ⟨?_, ?_, ?_, hst, by rw [hst], by rw [hst], by rw [hst]⟩
  · unfold getValueCall getValue
    split
    · dsimp only
      split <;> rfl
    · rfl
  · unfold getValue
    by_cases hlt : r.index < s.values.length
    · rw [dif_pos hlt]
      by_cases hsc : r.scope = scanScopes r.index s.curScope s.savedScopes.reverse
      · right; exact ⟨hlt, by simp only [hsc, if_true]⟩
      · left; simp only [hsc, if_false]
    · left; rw [dif_neg hlt]
  · intro hge
    unfold getValue
    rw [dif_neg (by omega)]

/-! Table length inside a scope -/

theorem within_pushValueScope_self (s : V8GoContext V) :
    Within (pushValueScope s).1 s.savedScopes ⟨s.curScope, toU32 s.values.length⟩
      (pushValueScope s).2 :=
  ⟨[], rfl, rfl⟩

theorem within_pushValueScope (id : Nat) (base : List ValueRef) (top : ValueRef)
    (s : V8GoContext V) (hw : Within id base top s) : Within id base top (pushValueScope s).2 := by
  obtain ⟨newer, hst, hx⟩ := hw
  refine ⟨newer ++ [⟨s.curScope, toU32 s.values.length⟩], ?_, ?_⟩
  · simp only [pushValueScope, hst, List.append_assoc, List.cons_append]
  · simp only [pushValueScope, List.map_append, List.map_cons, List.map_nil]
    rw [List.head?_append_of_ne_nil _ (by simp)]
    exact hx

theorem within_popValueScope [Inhabited V] (id : Nat) (base : List ValueRef) (top : ValueRef)
    (s : V8GoContext V) (x : Nat) (hw : Within id base top s)
    (hwin : x = id → (popValueScope s x).1 = false) :
    Within id base top (popValueScope s x).2 := by
  rcases popValueScope_cases s x with hf | ⟨st, c, hxc, hsc, hp⟩
  · rw [hf]; exact hw
  · obtain ⟨newer, hst, hx⟩ := hw
    rcases List.eq_nil_or_concat newer with hnil | ⟨nw, c', hcc⟩
    · exfalso
      subst hnil
      simp only [List.map_nil, List.nil_append, List.head?_cons, Option.some.injEq] at hx
      have := hwin (hxc.trans hx)
      rw [hp] at this
      exact Bool.noConfusion this
    · rw [List.concat_eq_append] at hcc
      subst hcc
      have hh : (base ++ top :: nw) ++ [c'] = st ++ [c] := by rw [← hsc, hst]; simp
      obtain ⟨hb, ht⟩ := List.append_inj' hh rfl
      have htc : c' = c := by simpa using ht
      subst htc
      rw [hp]
      refine ⟨nw, hb.symm, ?_⟩
      simp only [List.map_append, List.map_cons, List.map_nil] at hx
      rw [List.head?_append_of_ne_nil _ (by simp)] at hx
      exact hx

theorem within_run [Inhabited V] (id : Nat) (base : List ValueRef) (top : ValueRef)
    (s : V8GoContext V) (ops : List (Op V)) (hw : Within id base top s)
    (hwin : ∀ a b, ops = a ++ Op.pop id :: b → (popValueScope (run s a) id).1 = false) :
    Within id base top (run s ops) := by
  induction ops generalizing s with
  | nil => exact hw
  | cons o os ih =>
    have hwin' : ∀ a b, os = a ++ Op.pop id :: b →
        (popValueScope (run (step s o) a) id).1 = false := by
      intro a b hab
      exact hwin (o :: a) b (by rw [hab]; rfl)
    cases o with
    | add v => exact ih (addValue s v).2 hw hwin'
    | push => exact ih (pushValueScope s).2 (within_pushValueScope id base top s hw) hwin'
    | pop x =>
      refine ih (popValueScope s x).2 (within_popValueScope id base top s x hw ?_) hwin'
      intro hx
      subst hx
      exact hwin [] os rfl

theorem step_length_mono [Inhabited V] (s : V8GoContext V) (o : Op V)
    (h : ∀ x, o = Op.pop x → (popValueScope s x).1 = false) :
    s.values.length ≤ (step s o).values.length := by
  cases o with
  | add v => simp only [step, addValue, List.length_append, List.length_singleton]; omega
  | push => exact le_refl _
  | pop x =>
    have := popValueScope_false_state s x (h x rfl)
    simp only [step, this]; exact le_refl _

theorem within_after_push [Inhabited V] (c0 l0 : Nat) (pre p : List (Op V))
    (hwin : ∀ a b, p = a ++ Op.pop (pushValueScope (run (fresh c0 l0) pre)).1 :: b →
      (popValueScope (run (fresh c0 l0) (pre ++ Op.push :: a))
        (pushValueScope (run (fresh c0 l0) pre)).1).1 = false) :
    Within (pushValueScope (run (fresh c0 l0) pre)).1 (run (fresh c0 l0) pre).savedScopes
      ⟨(run (fresh c0 l0) pre).curScope, toU32 (run (fresh c0 l0) pre).values.length⟩
      (run (fresh c0 l0) (pre ++ Op.push :: p)) := by
  have hwin2 : ∀ a b, p = a ++ Op.pop (pushValueScope (run (fresh c0 l0) pre)).1 :: b →
      (popValueScope (run (pushValueScope (run (fresh c0 l0) pre)).2 a)
        (pushValueScope (run (fresh c0 l0) pre)).1).1 = false := by
    intro a b hab
    have := hwin a b hab
    rwa [run_append, run, step] at this
  rw [run_append, run, step]
  exact within_run _ _ _ _ p (within_pushValueScope_self _) hwin2

theorem length_ge_base [Inhabited V] (c0 l0 : Nat) (pre p : List (Op V))
    (hpush : ∀ a b, pre ++ Op.push :: p = a ++ Op.push :: b →
      (run (fresh c0 l0) a).values.length < u32Size)
    (hwin : ∀ a b, p = a ++ Op.pop (pushValueScope (run (fresh c0 l0) pre)).1 :: b →
      (popValueScope (run (fresh c0 l0) (pre ++ Op.push :: a))
        (pushValueScope (run (fresh c0 l0) pre)).1).1 = false) :
    (run (fresh c0 l0) pre).values.length
      ≤ (run (fresh c0 l0) (pre ++ Op.push :: p)).values.length := by
  have hinv := run_fresh_indexInv c0 l0 (pre ++ Op.push :: p) hpush
  have hlen := hpush pre p rfl
  obtain ⟨newer, hst, -⟩ := within_after_push c0 l0 pre p hwin
  have htop := hinv.2
    ⟨(run (fresh c0 l0) pre).curScope, toU32 (run (fresh c0 l0) pre).values.length⟩
    (by rw [hst]; simp)
  rw [toU32_of_lt _ hlen] at htop
  exact htop

/-- C12 as stated fails: between the push that returns 2 and the successful
`popValueScope(2)`, the successful pop of the nested scope 3 takes the table length from
1 back to 0. -/
theorem length_between_counterexample :
    (pushValueScope (fresh 1 1 : V8GoContext Nat)).1 = 2 ∧
    (popValueScope (run (fresh 1 1 : V8GoContext Nat) [Op.push, Op.push, Op.add 10, Op.pop 3])
      2).1 = true ∧
    (run (fresh 1 1 : V8GoContext Nat) [Op.push, Op.push, Op.add 10, Op.pop 3]).values.length
      < (run (fresh 1 1 : V8GoContext Nat) [Op.push, Op.push, Op.add 10]).values.length := by
  decide

/-- C12 (amended): between a `pushValueScope` call that returns `id` and the first
successful `popValueScope(id)` after it, the table length does not decrease from one
operation to the next unless that operation is a successful `popValueScope`, which then
closes a nested scope (the checkpoint of the push stays on the stack); and when the table
holds fewer than `2 ^ 32` entries whenever `pushValueScope` is called, the table length
never falls below the length it had at that push. -/
theorem length_between_push_and_pop [Inhabited V] (c0 l0 : Nat) (pre mid a b : List (Op V))
    (o : Op V)
    (hwin : ∀ a' b', mid = a' ++ Op.pop (pushValueScope (run (fresh c0 l0) pre)).1 :: b' →
      (popValueScope (run (fresh c0 l0) (pre ++ Op.push :: a'))
        (pushValueScope (run (fresh c0 l0) pre)).1).1 = false)
    (hmid : mid = a ++ o :: b) :
    ((∀ x, o = Op.pop x →
        (popValueScope (run (fresh c0 l0) (pre ++ Op.push :: a)) x).1 = false) →
      (run (fresh c0 l0) (pre ++ Op.push :: a)).values.length
        ≤ (step (run (fresh c0 l0) (pre ++ Op.push :: a)) o).values.length) ∧
    (∃ newer, (step (run (fresh c0 l0) (pre ++ Op.push :: a)) o).savedScopes
      = (run (fresh c0 l0) pre).savedScopes
        ++ ⟨(run (fresh c0 l0) pre).curScope, toU32 (run (fresh c0 l0) pre).values.length⟩
          :: newer) ∧
    ((∀ a' b', pre ++ Op.push :: (a ++ [o]) = a' ++ Op.push :: b' →
        (run (fresh c0 l0) a').values.length < u32Size) →
      (run (fresh c0 l0) pre).values.length
        ≤ (run (fresh c0 l0) (pre ++ Op.push :: a)).values.length ∧
      (run (fresh c0 l0) pre).values.length
        ≤ (step (run (fresh c0 l0) (pre ++ Op.push :: a)) o).values.length) := by
  subst hmid
  have hrun : step (run (fresh c0 l0) (pre ++ Op.push :: a)) o
      = run (fresh c0 l0) (pre ++ Op.push :: (a ++ [o])) := by
    rw [← run_concat]; simp
  have hwin1 : ∀ a' b', a ++ [o] = a' ++ Op.pop (pushValueScope (run (fresh c0 l0) pre)).1 :: b' →
      (popValueScope (run (fresh c0 l0) (pre ++ Op.push :: a'))
        (pushValueScope (run (fresh c0 l0) pre)).1).1 = false := by
    intro a' b' hab
    exact hwin a' (b' ++ b) (by
      have : a ++ o :: b = (a ++ [o]) ++ b := by simp
      rw [this, hab]; simp)
  have hwin0 : ∀ a' b', a = a' ++ Op.pop (pushValueScope (run (fresh c0 l0) pre)).1 :: b' →
      (popValueScope (run (fresh c0 l0) (pre ++ Op.push :: a'))
        (pushValueScope (run (fresh c0 l0) pre)).1).1 = false := by
    intro a' b' hab
    exact hwin a' (b' ++ o :: b) (by rw [hab]; simp)
  refine ⟨fun h => step_length_mono _ o h, ?_, ?_⟩
  · obtain ⟨newer, hst, -⟩ := within_after_push c0 l0 pre (a ++ [o]) hwin1
    exact ⟨newer, by rw [hrun]; exact hst⟩
  · intro hpush
    refine ⟨?_, ?_⟩
    · apply length_ge_base c0 l0 pre a _ hwin0
      intro a' b' hab
      exact hpush a' (b' ++ [o]) (by
        have : pre ++ Op.push :: (a ++ [o]) = (pre ++ Op.push :: a) ++ [o] := by simp
        rw [this, hab]; simp)
    · rw [hrun]
      exact length_ge_base c0 l0 pre (a ++ [o]) hpush hwin1

/-- Witness for C12: inside scope 2 a value is added, a nested scope is opened, filled and
popped; the step examined is the successful pop of the nested scope, which shrinks the
table but not below the length at the push of scope 2. -/
theorem length_between_push_and_pop_witness :
    noPopSucceeds (pushValueScope (run (fresh 1 1 : V8GoContext Nat) [Op.add 5])).1
      (run (fresh 1 1) ([Op.add 5] ++ [Op.push]))
      [Op.add 10, Op.push, Op.add 20, Op.pop 3, Op.add 30] = true ∧
    pushesBelow (fresh 1 1 : V8GoContext Nat)
      ([Op.add 5] ++ Op.push :: ([Op.add 10, Op.push, Op.add 20] ++ [Op.pop 3])) = true ∧
    (run (fresh 1 1 : V8GoContext Nat) [Op.add 5]).values.length
      ≤ (step
          (run (fresh 1 1 : V8GoContext Nat)
            ([Op.add 5] ++ Op.push :: [Op.add 10, Op.push, Op.add 20]))
          (Op.pop 3)).values.length :=
  ⟨by decide, by decide,
    ((length_between_push_and_pop 1 1 [Op.add 5]
      [Op.add 10, Op.push, Op.add 20, Op.pop 3, Op.add 30]
      [Op.add 10, Op.push, Op.add 20] [Op.add 30] (Op.pop 3)
      (fun a' b' hab => by
        have h := noPopSucceeds_spec
          (pushValueScope (run (fresh 1 1 : V8GoContext Nat) [Op.add 5])).1
          (run (fresh 1 1) ([Op.add 5] ++ [Op.push]))
          [Op.add 10, Op.push, Op.add 20, Op.pop 3, Op.add 30] (by decide) a' b' hab
        rw [← run_append] at h
        simpa using h)
      rfl).2.2
      (pushesBelow_spec (fresh 1 1)
        ([Op.add 5] ++ Op.push :: ([Op.add 10, Op.push, Op.add 20] ++ [Op.pop 3]))
        (by decide))).2⟩

/-! Checkpoints and table length in reachable states -/

/-- C13 as stated fails in the state reached through `overflowOps`: its only checkpoint has
base index `2 ^ 32 - 1` while the table is empty, so the base index exceeds the table
length (and the next successful pop lengthens the table). -/
theorem reachable_indexInv_counterexample :
    ¬ (∀ c ∈ (run (fresh 1 1) overflowOps).savedScopes,
        c.index ≤ (run (fresh 1 1) overflowOps).values.length) := by
  rw [run_overflowOps]
  intro h
  have h1 := h ⟨1, u32Size - 1⟩ (List.mem_singleton.mpr rfl)
  exact absurd h1 (by decide)

/-- C13 (amended): in every state reached from a freshly created context by a sequence in
which the table holds fewer than `2 ^ 32` entries whenever `pushValueScope` is called,
every checkpoint's base index is at most the table length and the base indices are
non-decreasing from the outermost to the innermost checkpoint; consequently a successful
`popValueScope` cuts the table to the top checkpoint's base index (never lengthens it),
`addValue` lengthens the table by exactly one, and `pushValueScope` and a failed
`popValueScope` leave the table alone. -/
theorem reachable_indexInv [Inhabited V] (c0 l0 : Nat) (ops : List (Op V))
    (hpush : ∀ a b, ops = a ++ Op.push :: b →
      (run (fresh c0 l0) a).values.length < u32Size) :
    (∀ c ∈ (run (fresh c0 l0) ops).savedScopes,
      c.index ≤ (run (fresh c0 l0) ops).values.length) ∧
    ((run (fresh c0 l0) ops).savedScopes.map ValueRef.index).Pairwise (· ≤ ·) ∧
    (∀ x c, (run (fresh c0 l0) ops).savedScopes.getLast? = some c →
      (popValueScope (run (fresh c0 l0) ops) x).1 = true →
      (popValueScope (run (fresh c0 l0) ops) x).2.values
          = (run (fresh c0 l0) ops).values.take c.index ∧
        (popValueScope (run (fresh c0 l0) ops) x).2.values.length = c.index ∧
        c.index ≤ (run (fresh c0 l0) ops).values.length) ∧
    (∀ v, (addValue (run (fresh c0 l0) ops) v).2.values.length
      = (run (fresh c0 l0) ops).values.length + 1) ∧
    (pushValueScope (run (fresh c0 l0) ops)).2.values = (run (fresh c0 l0) ops).values ∧
    (∀ x, (popValueScope (run (fresh c0 l0) ops) x).1 = false →
      (popValueScope (run (fresh c0 l0) ops) x).2.values = (run (fresh c0 l0) ops).values) := by
  have hinv := run_fresh_indexInv c0 l0 ops hpush
  generalize run (fresh c0 l0) ops = s at hinv ⊢
  refine ⟨hinv.2, hinv.1, ?_, ?_, rfl, ?_⟩
  · intro x c htop hok
    have hc : c ∈ s.savedScopes := by
      obtain ⟨st, hst⟩ := List.getLast?_eq_some_iff.mp htop
      rw [hst]; simp
    have hle := hinv.2 c hc
    rw [popValueScope_true_state s x c htop hok]
    exact ⟨resize_of_le _ _ hle, resize_length _ _, hle⟩
  · intro v
    simp only [addValue, List.length_append, List.length_singleton]
  · intro x hf
    rw [popValueScope_false_state s x hf]

/-- Witness for C13: the state of scenario B with both scopes open. -/
theorem reachable_indexInv_witness :
    pushesBelow (fresh 1 1) [Op.push, Op.add 10, Op.push, Op.add (20 : Nat)] = true ∧
    (∀ c ∈ (run (fresh 1 1) [Op.push, Op.add 10, Op.push, Op.add (20 : Nat)]).savedScopes,
      c.index ≤ (run (fresh 1 1) [Op.push, Op.add 10, Op.push, Op.add (20 : Nat)]).values.length) ∧
    ((run (fresh 1 1) [Op.push, Op.add 10, Op.push, Op.add (20 : Nat)]).savedScopes.map
      ValueRef.index).Pairwise (· ≤ ·) :=
  have h := reachable_indexInv 1 1 [Op.push, Op.add 10, Op.push, Op.add (20 : Nat)]
    (pushesBelow_spec (fresh 1 1) [Op.push, Op.add 10, Op.push, Op.add (20 : Nat)] (by decide))
  ⟨by decide, h.1, h.2.1⟩

/-! Failing script runs -/

/-- C14: when `RunScript` fails to convert the source or the origin text to a runtime
string, or fails to compile the source, the result carries the error built by
`exceptionError()` and `addValue` is not called: the context state (value table, checkpoint
stack, current scope id) is the same as before the call. -/
theorem RunScript_failure {T Str Script E : Type} (eng : Engine T Str Script V E)
    (ctx : V8GoContext V) (source origin : T)
    (hfail : eng.newFromUtf8 source = none ∨ eng.newFromUtf8 origin = none ∨
      ∃ src ogn, eng.newFromUtf8 source = some src ∧ eng.newFromUtf8 origin = some ogn ∧
        eng.compile src ogn = none) :
    (RunScript eng ctx source origin).1.error = some eng.exceptionError ∧
    (RunScript eng ctx source origin).2 = ctx ∧
    (RunScript eng ctx source origin).2.values = ctx.values ∧
    (RunScript eng ctx source origin).2.savedScopes = ctx.savedScopes ∧
    (RunScript eng ctx source origin).2.curScope = ctx.curScope := by
  have key : RunScript eng ctx source origin
      = ({ value := ⟨0, 0⟩, error := some eng.exceptionError }, ctx) := by
    unfold RunScript
    rcases hfail with h | h | ⟨src, ogn, h1, h2, h3⟩
    · simp only [h]
    · simp only [h]
      cases eng.newFromUtf8 source <;> rfl
    · simp only [h1, h2, h3]
  rw [key]
  exact ⟨rfl, rfl, rfl, rfl, rfl⟩

/-- Witness for C14: in scenario B's state, a source that does not compile, an origin that
cannot be converted, and (for contrast) a script that runs and registers values. -/
theorem RunScript_failure_witness :
    (sampleEngine.newFromUtf8 1 = some 1 ∧ sampleEngine.newFromUtf8 5 = some 5 ∧
      sampleEngine.compile 1 5 = none) ∧
    (RunScript sampleEngine (run (fresh 1 1) [Op.push, Op.add 10]) 1 5).1.error = some 7 ∧
    (RunScript sampleEngine (run (fresh 1 1) [Op.push, Op.add 10]) 1 5).2
      = run (fresh 1 1) [Op.push, Op.add 10] ∧
    (RunScript sampleEngine (run (fresh 1 1) [Op.push, Op.add 10]) 2 0).2
      = run (fresh 1 1) [Op.push, Op.add 10] ∧
    (RunScript sampleEngine (run (fresh 1 1) [Op.push, Op.add 10]) 2 5).2.values
      = [10, 99, 2] := by
  have h := RunScript_failure sampleEngine (run (fresh 1 1) [Op.push, Op.add 10]) 1 5
    (Or.inr (Or.inr ⟨1, 5, by decide, by decide, by decide⟩))
  exact ⟨by decide, h.1, h.2.1, by decide, by decide⟩

/-! Reverse lookup of the owning wrapper -/

/-- C15: for two wrappers at distinct addresses constructed on two distinct runtime context
objects, `fromContext` on A's runtime context returns A's wrapper and not B's, constructing
B does not change what `fromContext` returns for A, and `fromContext` on B's runtime context
returns B's wrapper, although both use embedder slot 1. -/
theorem fromContext_own_wrapper (d : EmbedderData) (ctxA ctxB thisA thisB : Nat)
    (hctx : ctxA ≠ ctxB) (hthis : thisA ≠ thisB) :
    V8GoContext.fromContext (V8GoContext.ctor (V8GoContext.ctor d ctxA thisA) ctxB thisB) ctxA
      = some thisA ∧
    V8GoContext.fromContext (V8GoContext.ctor (V8GoContext.ctor d ctxA thisA) ctxB thisB) ctxA
      ≠ some thisB ∧
    V8GoContext.fromContext (V8GoContext.ctor (V8GoContext.ctor d ctxA thisA) ctxB thisB) ctxA
      = V8GoContext.fromContext (V8GoContext.ctor d ctxA thisA) ctxA ∧
    V8GoContext.fromContext (V8GoContext.ctor (V8GoContext.ctor d ctxA thisA) ctxB thisB) ctxB
      = some thisB ∧
    V8GoContext.fromContext (V8GoContext.ctor (V8GoContext.ctor d ctxB thisB) ctxA thisA) ctxA
      = some thisA := by
  simp only [V8GoContext.fromContext, V8GoContext.ctor, GetAlignedPointerFromEmbedderData,
    SetAlignedPointerInEmbedderData, and_self, if_true, hctx, false_and, if_false,
    Option.some.injEq, ne_eq, hthis, not_false_eq_true, and_true]

/-- Witness for C15: wrappers at addresses 100 and 200 on the context objects 10 and 11. -/
theorem fromContext_own_wrapper_witness :
    (10 : Nat) ≠ 11 ∧ (100 : Nat) ≠ 200 ∧
    V8GoContext.fromContext
      (V8GoContext.ctor (V8GoContext.ctor EmbedderData.empty 10 100) 11 200) 10 = some 100 ∧
    V8GoContext.fromContext
      (V8GoContext.ctor (V8GoContext.ctor EmbedderData.empty 10 100) 11 200) 11 = some 200 :=
  have h := fromContext_own_wrapper EmbedderData.empty 10 11 100 200 (by decide) (by decide)
  ⟨by decide, by decide, h.1, h.2.2.2.1⟩

/-! A scope opened and closed again -/

theorem run_map_add [Inhabited V] (s : V8GoContext V) (hs : List V) :
    run s (hs.map Op.add) = { s with values := s.values ++ hs } := by
  induction hs generalizing s with
  | nil => simp [run]
  | cons h t ih =>
    rw [List.map_cons, run, ih]
    simp [step, addValue]

theorem pushAddsPop_state [Inhabited V] (s : V8GoContext V) (hs : List V) :
    popValueScope (run (pushValueScope s).2 (hs.map Op.add)) (pushValueScope s).1
      = (true, { s with values := resize (s.values ++ hs) (toU32 s.values.length),
                        latestScope := (s.latestScope + 1) % u32Size }) := by
  rw [run_map_add]
  exact popValueScope_concat
    ({ (pushValueScope s).2 with values := (pushValueScope s).2.values ++ hs })
    s.savedScopes ⟨s.curScope, toU32 s.values.length⟩ rfl

/-- C17 as stated fails once the table holds `2 ^ 32` entries: in the state reached by
`2 ^ 32` `addValue` calls, a push followed at once (`k = 0`) by the pop of the returned id
does not give the table back. -/
theorem pushAddsPop_counterexample :
    (popValueScope
        (run (pushValueScope (run (fresh 1 1) (List.replicate u32Size (Op.add 7)))).2
          (List.map Op.add []))
        (pushValueScope (run (fresh 1 1) (List.replicate u32Size (Op.add 7)))).1).2.values
      ≠ (run (fresh 1 1) (List.replicate u32Size (Op.add 7))).values := by
  rw [run_replicate_add]
  intro h
  have hl := congrArg List.length h
  exact (pushPop_at_overflow _
    (by simp only [fresh, List.nil_append, List.length_replicate])).2 hl

/-- C17 (amended): in every state whose table holds fewer than `2 ^ 32` entries (so in
every state reached from a freshly created context by fewer than `2 ^ 32` `addValue`
calls) and for every finite list of handles `h1..hk`: `id := pushValueScope()`, then
`addValue(h1) .. addValue(hk)`, then `popValueScope(id)` returns true and restores the
value table, the checkpoint stack and the current scope id exactly; only the scope-id
counter has advanced. -/
theorem pushAddsPop_restores [Inhabited V] (s : V8GoContext V) (hs : List V)
    (hlen : s.values.length < u32Size) :
    (popValueScope (run (pushValueScope s).2 (hs.map Op.add)) (pushValueScope s).1).1 = true ∧
    (popValueScope (run (pushValueScope s).2 (hs.map Op.add)) (pushValueScope s).1).2.values
      = s.values ∧
    (popValueScope (run (pushValueScope s).2 (hs.map Op.add)) (pushValueScope s).1).2.savedScopes
      = s.savedScopes ∧
    (popValueScope (run (pushValueScope s).2 (hs.map Op.add)) (pushValueScope s).1).2.curScope
      = s.curScope ∧
    (popValueScope (run (pushValueScope s).2 (hs.map Op.add)) (pushValueScope s).1).2.latestScope
      = (s.latestScope + 1) % u32Size := by
  rw [pushAddsPop_state]
  refine ⟨rfl, ?_, rfl, rfl, rfl⟩
  show resize (s.values ++ hs) (toU32 s.values.length) = s.values
  rw [toU32_of_lt _ hlen, resize_of_le _ _ (by simp), List.take_left]

/-- Witness for C17: inside scope 2 with one value, a scope is pushed, three values are
added and the scope is popped. -/
theorem pushAddsPop_restores_witness :
    (run (fresh 1 1 : V8GoContext Nat) [Op.push, Op.add 10]).values.length < u32Size ∧
    (popValueScope
        (run (pushValueScope (run (fresh 1 1 : V8GoContext Nat) [Op.push, Op.add 10])).2
          ([20, 30, 40].map Op.add))
        (pushValueScope (run (fresh 1 1 : V8GoContext Nat) [Op.push, Op.add 10])).1).1 = true ∧
    (popValueScope
        (run (pushValueScope (run (fresh 1 1 : V8GoContext Nat) [Op.push, Op.add 10])).2
          ([20, 30, 40].map Op.add))
        (pushValueScope (run (fresh 1 1 : V8GoContext Nat) [Op.push, Op.add 10])).1).2.values
      = (run (fresh 1 1 : V8GoContext Nat) [Op.push, Op.add 10]).values :=
  have h := pushAddsPop_restores (run (fresh 1 1 : V8GoContext Nat) [Op.push, Op.add 10])
    [20, 30, 40] (by decide)
  ⟨by decide, h.1, h.2.1⟩

/-! Scope ids of reachable states -/

/-- C18: in every state reached from a freshly created context whose initial current scope
id is at most its initial counter, as long as the 32-bit counter has not wrapped: the
parent scope ids on the checkpoint stack increase strictly from outermost to innermost, all
are below the current scope id, and the current scope id is at most the latest allocated
id; hence the ids of the open scopes are pairwise distinct, and an id handed out by a
further `pushValueScope` (not wrapping either) differs from every id that is open or was
open in any earlier state of the sequence. -/
theorem reachable_scopeInv [Inhabited V] (c0 l0 : Nat) (ops : List (Op V)) (hc : c0 ≤ l0)
    (hwrap : l0 + numPushes ops < u32Size) :
    ((run (fresh c0 l0) ops).savedScopes.map ValueRef.scope).Pairwise (· < ·) ∧
    (∀ c ∈ (run (fresh c0 l0) ops).savedScopes, c.scope < (run (fresh c0 l0) ops).curScope) ∧
    (run (fresh c0 l0) ops).curScope ≤ (run (fresh c0 l0) ops).latestScope ∧
    ((run (fresh c0 l0) ops).savedScopes.map ValueRef.scope
      ++ [(run (fresh c0 l0) ops).curScope]).Nodup ∧
    ((run (fresh c0 l0) ops).latestScope + 1 < u32Size →
      ∀ a b, ops = a ++ b →
        (pushValueScope (run (fresh c0 l0) ops)).1 ≠ (run (fresh c0 l0) a).curScope ∧
        ∀ c ∈ (run (fresh c0 l0) a).savedScopes,
          (pushValueScope (run (fresh c0 l0) ops)).1 ≠ c.scope) := by
  have hl0 : (fresh c0 l0 : V8GoContext V).latestScope = l0 := rfl
  have hinv : ScopeInv (run (fresh c0 l0) ops) :=
    run_scopeInv _ _ (scopeInv_fresh c0 l0 hc) (by rw [hl0]; exact hwrap)
  have hlat : (run (fresh c0 l0) ops).latestScope = l0 + numPushes ops := by
    rw [run_latestScope _ _ (by rw [hl0]; exact hwrap), hl0]
  refine ⟨hinv.1, hinv.2.1, hinv.2.2, ?_, ?_⟩
  · have hp : ((run (fresh c0 l0) ops).savedScopes.map ValueRef.scope
        ++ [(run (fresh c0 l0) ops).curScope]).Pairwise (· < ·) := by
      rw [List.pairwise_append]
      refine ⟨hinv.1, List.pairwise_singleton _ _, ?_⟩
      intro x hx y hy
      obtain ⟨c, hcm, rfl⟩ := List.mem_map.mp hx
      rw [List.mem_singleton] at hy
      subst hy
      exact hinv.2.1 c hcm
    exact hp.imp (fun h => Nat.ne_of_lt h)
  · intro hnext a b hab
    subst hab
    rw [numPushes_append] at hwrap hlat
    have hinva : ScopeInv (run (fresh c0 l0) a) :=
      run_scopeInv _ _ (scopeInv_fresh c0 l0 hc) (by rw [hl0]; omega)
    have hlata : (run (fresh c0 l0) a).latestScope = l0 + numPushes a := by
      rw [run_latestScope _ _ (by rw [hl0]; omega), hl0]
    have hid : (pushValueScope (run (fresh c0 l0) (a ++ b))).1
        = l0 + (numPushes a + numPushes b) + 1 := by
      rw [pushValueScope_fst, Nat.mod_eq_of_lt hnext, hlat]
    have hcur := hinva.2.2
    refine ⟨by rw [hid]; omega, fun c hcm => ?_⟩
    have := hinva.2.1 c hcm
    rw [hid]; omega

/-- Witness for C18: scenario B's state with both scopes open, looking back at the earlier
state in which only scope 2 was open. -/
theorem reachable_scopeInv_witness :
    (1 : Nat) ≤ 1 ∧
    1 + numPushes [Op.push, Op.add 10, Op.push, Op.add (20 : Nat)] < u32Size ∧
    ((run (fresh 1 1) [Op.push, Op.add 10, Op.push, Op.add (20 : Nat)]).savedScopes.map
      ValueRef.scope).Pairwise (· < ·) ∧
    (pushValueScope (run (fresh 1 1) [Op.push, Op.add 10, Op.push, Op.add (20 : Nat)])).1
      ≠ (run (fresh 1 1) [Op.push, Op.add (10 : Nat)]).curScope :=
  have h := reachable_scopeInv 1 1 [Op.push, Op.add 10, Op.push, Op.add (20 : Nat)]
    (by decide) (by decide)
  ⟨by decide, by decide, h.1,
    (h.2.2.2.2 (by decide) [Op.push, Op.add 10] [Op.push, Op.add 20] rfl).1⟩

/-! Scenarios of the specification, evaluated on the model -/

/-- Scenario A: refs of a popped scope are rejected. -/
theorem scenario_A :
    (addValue (run (fresh 1 1) [Op.push]) 10).1 = ⟨2, 0⟩ ∧
    (addValue (run (fresh 1 1) [Op.push, Op.add 10]) 20).1 = ⟨2, 1⟩ ∧
    (popValueScope (run (fresh 1 1) [Op.push, Op.add 10, Op.add 20]) 2).1 = true ∧
    getValue (run (fresh 1 1 : V8GoContext Nat) [Op.push, Op.add 10, Op.add 20, Op.pop 2]) ⟨2, 0⟩
      = GetResult.undefined := by
  decide

/-- Scenario B: a ref of the outer scope stays valid inside a nested scope, and the pops
bring the table length back to 1 and then 0. -/
theorem scenario_B :
    getValue (run (fresh 1 1) [Op.push, Op.add 10, Op.push, Op.add 20]) ⟨2, 0⟩
      = GetResult.entry 10 ∧
    (run (fresh 1 1 : V8GoContext Nat) [Op.push, Op.add 10, Op.push, Op.add 20, Op.pop 3]).values.length
      = 1 ∧
    (run (fresh 1 1 : V8GoContext Nat)
      [Op.push, Op.add 10, Op.push, Op.add 20, Op.pop 3, Op.pop 2]).values.length = 0 := by
  decide

/-- Scenario C: popping a scope id that was never pushed fails and changes nothing. -/
theorem scenario_C :
    popValueScope (run (fresh 1 1 : V8GoContext Nat) [Op.push]) 3
      = (false, run (fresh 1 1) [Op.push]) := by
  decide

end V8Go
